import Mathlib

set_option autoImplicit false

/-! Formal model of the in-document AI collaboration engine of the goose
desktop text editor: the smart diff engine (`utils/smartDiff.ts`), the
mark-based position anchoring over the rich-text document
(`utils/markHelpers.ts`), and the batch response reconciler
(`TextEditorView.tsx`).  JavaScript strings are modelled as lists of
characters (`JStr`); JavaScript floating point ratios are modelled as exact
rationals (all ratios involved have small numerators and denominators, far
below the range where IEEE doubles diverge from exact arithmetic). -/

abbrev JStr := List Char

/-- Whitespace test backing the JS regex class \s and String.trim. -/
def isWs (c : Char) : Bool := c.isWhitespace

/-- Model of JS String.prototype.trim: remove leading and trailing
whitespace. -/
def jsTrim (s : JStr) : JStr :=
  ((s.dropWhile isWs).reverse.dropWhile isWs).reverse

/-- Split at every single whitespace character; chunks between two adjacent
separators are empty.  Auxiliary for `jsSplitWs`. -/
def splitEveryWs : JStr → List JStr
  | [] => [[]]
  | c :: cs =>
    match splitEveryWs cs with
    | [] => [[]]
    | t :: ts => if isWs c then [] :: t :: ts else (c :: t) :: ts

/-- Drop the empty chunks that sit strictly between the first and the last
chunk.  Applied to the tail of `splitEveryWs`, this collapses runs of
separators the way the JS regex split on \s+ does. -/
def collapseMid : List JStr → List JStr
  | [] => []
  | [t] => [t]
  | t :: ts => if t = [] then collapseMid ts else t :: collapseMid ts

/-- Model of JS String.prototype.split on the regex \s+: maximal whitespace
runs separate the chunks; a leading or trailing separator run contributes an
empty first or last chunk, exactly as in JS. -/
def jsSplitWs (s : JStr) : List JStr :=
  match splitEveryWs s with
  | [] => []
  | t :: ts => t :: collapseMid ts

/-- Model of `tokenizeWords` from smartDiff.ts:
`text.trim().split(/\s+/).filter(token => token.length > 0)`. -/
def tokenizeWords (text : JStr) : List JStr :=
  (jsSplitWs (jsTrim text)).filter (fun t => decide (t ≠ []))

/-- Segment kind of the smart diff (`DiffSegment.type` in smartDiff.ts). -/
inductive SegType
  | unchanged
  | deleted
  | added
deriving DecidableEq

/-- One diff segment: a kind plus its text (`DiffSegment` in smartDiff.ts). -/
structure DiffSegment where
  type : SegType
  text : JStr
deriving DecidableEq

/-- Length of the longest common subsequence of two token lists, with fuel to
keep the recursion structural.  The DP table of `generateWordDiff` satisfies
dp[i][j] = lcsLen (first i original tokens) (first j suggested tokens). -/
def lcsLenF : Nat → List JStr → List JStr → Nat
  | 0, _, _ => 0
  | _ + 1, [], _ => 0
  | _ + 1, _ :: _, [] => 0
  | fuel + 1, x :: xs, y :: ys =>
    if x = y then lcsLenF fuel xs ys + 1
    else max (lcsLenF fuel xs (y :: ys)) (lcsLenF fuel (x :: xs) ys)

/-- LCS length with the canonical sufficient fuel. -/
def lcsLen (xs ys : List JStr) : Nat := lcsLenF (xs.length + ys.length) xs ys

/-- Backtracking phase of `generateWordDiff`.  The JS walks a cursor (i, j)
down from (m, n), unshifting one single-token segment per step; here the
cursor is represented by the reversed prefix lists `ro` (= reverse of the
first i original tokens) and `rs` (= reverse of the first j suggested
tokens), and each step's segment is appended after the recursive result,
which reproduces the same final order.  The two dp-table reads
dp[i-1][j] and dp[i][j-1] become `lcsLen` of the corresponding prefixes.
Fuel = ro.length + rs.length keeps the recursion structural. -/
def backtrackF : Nat → List JStr → List JStr → List DiffSegment
  | 0, _, _ => []
  | _ + 1, [], [] => []
  | fuel + 1, x :: ro, [] => backtrackF fuel ro [] ++ [⟨SegType.deleted, x⟩]
  | fuel + 1, [], y :: rs => backtrackF fuel [] rs ++ [⟨SegType.added, y⟩]
  | fuel + 1, x :: ro, y :: rs =>
    if x = y then backtrackF fuel ro rs ++ [⟨SegType.unchanged, x⟩]
    else if lcsLen ro.reverse ((y :: rs).reverse) ≥ lcsLen ((x :: ro).reverse) rs.reverse then
      backtrackF fuel ro (y :: rs) ++ [⟨SegType.deleted, x⟩]
    else backtrackF fuel (x :: ro) rs ++ [⟨SegType.added, y⟩]

/-- Model of `generateWordDiff` from smartDiff.ts: LCS dynamic programming
over the two token lists followed by the backtrack that emits
unchanged/deleted/added single-token segments. -/
def generateWordDiff (originalWords suggestedWords : List JStr) : List DiffSegment :=
  backtrackF (originalWords.length + suggestedWords.length)
    originalWords.reverse suggestedWords.reverse

/-- Loop of `mergeAndFormatSegments`: `current` is the segment being grown;
a same-type successor is merged into it with a single joining space,
otherwise `current` is emitted and the successor becomes current. -/
def mergeAux : DiffSegment → List DiffSegment → List DiffSegment
  | current, [] => [current]
  | current, s :: rest =>
    if s.type = current.type then mergeAux ⟨current.type, current.text ++ ' ' :: s.text⟩ rest
    else current :: mergeAux s rest

/-- Model of `mergeAndFormatSegments` from smartDiff.ts. -/
def mergeAndFormatSegments : List DiffSegment → List DiffSegment
  | [] => []
  | s :: rest => mergeAux s rest

/-- Per-segment word count `segment.text.split(/\s+/).length` used by
`calculateComplexity` and by the hasSubstantialUnchanged test. -/
def segSplitLen (s : DiffSegment) : Nat := (jsSplitWs s.text).length

/-- The (changedWords, totalWords) accumulator pair of
`calculateComplexity`'s forEach loop. -/
def countWords (segments : List DiffSegment) : Nat × Nat :=
  segments.foldl
    (fun p s =>
      let wc := segSplitLen s
      ((if s.type ≠ SegType.unchanged then p.1 + wc else p.1), p.2 + wc))
    (0, 0)

/-- Model of `calculateComplexity` from smartDiff.ts:
changedWords / max(totalWords, originalLength), with the early return 1 for
an empty original token list. -/
def calculateComplexity (segments : List DiffSegment) (originalLength : Nat) : ℚ :=
  if originalLength = 0 then 1
  else ((countWords segments).1 : ℚ) / ((max (countWords segments).2 originalLength : Nat) : ℚ)

/-- Result record of the smart diff (`DiffResult` in smartDiff.ts). -/
structure DiffResult where
  segments : List DiffSegment
  changeComplexity : ℚ
  shouldUseGranular : Bool

/-- Model of `generateSmartDiff` from smartDiff.ts, including the three
empty-input early returns and the readability decision. -/
def generateSmartDiff (originalText suggestedText : JStr) : DiffResult :=
  if originalText = [] ∧ suggestedText = [] then ⟨[], 0, true⟩
  else if originalText = [] then ⟨[⟨SegType.added, suggestedText⟩], 1, true⟩
  else if suggestedText = [] then ⟨[⟨SegType.deleted, originalText⟩], 1, true⟩
  else
    let originalWords := tokenizeWords originalText
    let suggestedWords := tokenizeWords suggestedText
    let rawSegments := generateWordDiff originalWords suggestedWords
    let segments := mergeAndFormatSegments rawSegments
    let complexity := calculateComplexity segments originalWords.length
    let hasSubstantialUnchanged : Bool :=
      segments.any fun s => decide (s.type = SegType.unchanged) && decide (2 ≤ segSplitLen s)
    let tooManySegments : Bool := decide (segments.length > 8)
    let tooComplex : Bool := decide (complexity > (7 : ℚ)/10)
    ⟨segments, complexity, !tooComplex && !tooManySegments && hasSubstantialUnchanged⟩

example : tokenizeWords ("  a  b ".toList) = [['a'], ['b']] := by decide

example : jsSplitWs (" a".toList) = [[], ['a']] := by decide

example : jsSplitWs ("".toList) = [[]] := by decide

example :
    (generateSmartDiff ("Hello world".toList) ("Hello world today".toList)).segments =
      [⟨SegType.unchanged, "Hello world".toList⟩, ⟨SegType.added, "today".toList⟩] := by
  decide

example :
    (generateSmartDiff ("hello".toList) ("hello".toList)).segments =
      [⟨SegType.unchanged, "hello".toList⟩] := by decide

/-- Join a list of token texts with single spaces (the separator the merge
step inserts between tokens of one segment). -/
def joinSp : List JStr → JStr
  | [] => []
  | [t] => t
  | t :: ts => t ++ ' ' :: joinSp ts

/-- Texts of the segments whose type satisfies `p`, in order. -/
def segTexts (p : SegType → Bool) (l : List DiffSegment) : List JStr :=
  (l.filter (fun s => p s.type)).map DiffSegment.text

/-- Type test selecting the segments that reconstruct the original text. -/
def keepOrig (ty : SegType) : Bool := decide (ty ≠ SegType.added)

/-- Type test selecting the segments that reconstruct the suggested text. -/
def keepSugg (ty : SegType) : Bool := decide (ty ≠ SegType.deleted)

theorem segTexts_append (p : SegType → Bool) (l₁ l₂ : List DiffSegment) :
    segTexts p (l₁ ++ l₂) = segTexts p l₁ ++ segTexts p l₂ := by
  simp [segTexts, List.filter_append]

/-- The non-added segments emitted by the backtrack carry exactly the
original-side cursor tokens, in document order. -/
theorem backtrackF_segTexts_keepOrig :
    ∀ fuel ro rs, ro.length + rs.length ≤ fuel →
      segTexts keepOrig (backtrackF fuel ro rs) = ro.reverse := by
  intro fuel
  induction fuel with
  | zero =>
    intro ro rs h
    cases ro with
    | nil => simp [backtrackF, segTexts]
    | cons x ro => simp at h
  | succ fuel ih =>
    intro ro rs h
    cases ro with
    | nil =>
      cases rs with
      | nil => simp [backtrackF, segTexts]
      | cons y rs =>
        simp only [backtrackF, segTexts_append]
        rw [ih [] rs (by simpa using Nat.le_of_succ_le_succ (by simpa using h))]
        simp [segTexts, keepOrig]
    | cons x ro =>
      cases rs with
      | nil =>
        simp only [backtrackF, segTexts_append]
        rw [ih ro [] (by simp at h ⊢; omega)]
        simp [segTexts, keepOrig]
      | cons y rs =>
        simp only [backtrackF]
        by_cases hxy : x = y
        · simp only [if_pos hxy, segTexts_append]
          rw [ih ro rs (by simp at h ⊢; omega)]
          simp [segTexts, keepOrig, hxy]
        · simp only [if_neg hxy]
          by_cases hdp :
              lcsLen ro.reverse ((y :: rs).reverse) ≥ lcsLen ((x :: ro).reverse) rs.reverse
          · simp only [if_pos hdp, segTexts_append]
            rw [ih ro (y :: rs) (by simp at h ⊢; omega)]
            simp [segTexts, keepOrig]
          · simp only [if_neg hdp, segTexts_append]
            rw [ih (x :: ro) rs (by simp at h ⊢; omega)]
            simp [segTexts, keepOrig]

/-- The non-deleted segments emitted by the backtrack carry exactly the
suggested-side cursor tokens, in document order. -/
theorem backtrackF_segTexts_keepSugg :
    ∀ fuel ro rs, ro.length + rs.length ≤ fuel →
      segTexts keepSugg (backtrackF fuel ro rs) = rs.reverse := by
  intro fuel
  induction fuel with
  | zero =>
    intro ro rs h
    cases rs with
    | nil => simp [backtrackF, segTexts]
    | cons y rs => simp at h
  | succ fuel ih =>
    intro ro rs h
    cases ro with
    | nil =>
      cases rs with
      | nil => simp [backtrackF, segTexts]
      | cons y rs =>
        simp only [backtrackF, segTexts_append]
        rw [ih [] rs (by simp at h ⊢; omega)]
        simp [segTexts, keepSugg]
    | cons x ro =>
      cases rs with
      | nil =>
        simp only [backtrackF, segTexts_append]
        rw [ih ro [] (by simp at h ⊢; omega)]
        simp [segTexts, keepSugg]
      | cons y rs =>
        simp only [backtrackF]
        by_cases hxy : x = y
        · simp only [if_pos hxy, segTexts_append]
          rw [ih ro rs (by simp at h ⊢; omega)]
          simp [segTexts, keepSugg, hxy]
        · simp only [if_neg hxy]
          by_cases hdp :
              lcsLen ro.reverse ((y :: rs).reverse) ≥ lcsLen ((x :: ro).reverse) rs.reverse
          · simp only [if_pos hdp, segTexts_append]
            rw [ih ro (y :: rs) (by simp at h ⊢; omega)]
            simp [segTexts, keepSugg]
          · simp only [if_neg hdp, segTexts_append]
            rw [ih (x :: ro) rs (by simp at h ⊢; omega)]
            simp [segTexts, keepSugg]

/-- On equal cursor lists the backtrack emits only unchanged segments. -/
theorem backtrackF_diag :
    ∀ fuel l, l.length + l.length ≤ fuel →
      backtrackF fuel l l = (l.map fun x => (⟨SegType.unchanged, x⟩ : DiffSegment)).reverse := by
  intro fuel
  induction fuel with
  | zero =>
    intro l h
    cases l with
    | nil => simp [backtrackF]
    | cons x l => simp at h
  | succ fuel ih =>
    intro l h
    cases l with
    | nil => simp [backtrackF]
    | cons x l =>
      simp only [backtrackF, if_pos rfl]
      rw [ih l (by simp at h ⊢; omega)]
      simp

theorem generateWordDiff_diag (t : List JStr) :
    generateWordDiff t t = t.map fun x => (⟨SegType.unchanged, x⟩ : DiffSegment) := by
  rw [generateWordDiff, backtrackF_diag (t.length + t.length) t.reverse (by simp)]
  simp


theorem joinSp_cons_of_ne_nil (x : JStr) (l : List JStr) (h : l ≠ []) :
    joinSp (x :: l) = x ++ ' ' :: joinSp l := by
  cases l with
  | nil => exact absurd rfl h
  | cons y ys => rfl

theorem joinSp_merge_head (a b : JStr) (l : List JStr) :
    joinSp ((a ++ ' ' :: b) :: l) = joinSp (a :: b :: l) := by
  cases l with
  | nil => rfl
  | cons z zs =>
    rw [joinSp_cons_of_ne_nil _ _ (by simp), joinSp_cons_of_ne_nil a (b :: z :: zs) (by simp),
      joinSp_cons_of_ne_nil b (z :: zs) (by simp), List.append_assoc]
    rfl

theorem joinSp_append (a b : List JStr) (ha : a ≠ []) (hb : b ≠ []) :
    joinSp (a ++ b) = joinSp a ++ ' ' :: joinSp b := by
  induction a with
  | nil => exact absurd rfl ha
  | cons x xs ih =>
    cases xs with
    | nil => simpa using joinSp_cons_of_ne_nil x b hb
    | cons y ys =>
      rw [List.cons_append, joinSp_cons_of_ne_nil x ((y :: ys) ++ b) (by simp),
        joinSp_cons_of_ne_nil x (y :: ys) (by simp), ih (by simp), List.append_assoc]
      rfl

theorem segTexts_cons (p : SegType → Bool) (s : DiffSegment) (l : List DiffSegment) :
    segTexts p (s :: l) =
      if p s.type then s.text :: segTexts p l else segTexts p l := by
  by_cases hp : p s.type
  · simp [segTexts, List.filter_cons, hp]
  · simp [segTexts, List.filter_cons, hp]

/-- One merge step preserves both the space-joined concatenation of the
selected segment texts and its emptiness, for any type-based selection. -/
theorem mergeAux_segTexts (p : SegType → Bool) :
    ∀ rest current,
      joinSp (segTexts p (mergeAux current rest)) = joinSp (segTexts p (current :: rest)) ∧
        (segTexts p (mergeAux current rest) = [] ↔ segTexts p (current :: rest) = []) := by
  intro rest
  induction rest with
  | nil => intro current; exact ⟨rfl, Iff.rfl⟩
  | cons s rest ih =>
    intro current
    by_cases hty : s.type = current.type
    · simp only [mergeAux, if_pos hty]
      have h2 := ih ⟨current.type, current.text ++ ' ' :: s.text⟩
      refine ⟨h2.1.trans ?_, h2.2.trans ?_⟩
      · rw [segTexts_cons, segTexts_cons, segTexts_cons, hty]
        by_cases hp : p current.type
        · rw [if_pos hp, if_pos hp, if_pos hp]
          exact joinSp_merge_head _ _ _
        · rw [if_neg hp, if_neg hp, if_neg hp]
      · rw [segTexts_cons, segTexts_cons, segTexts_cons, hty]
        by_cases hp : p current.type
        · rw [if_pos hp, if_pos hp, if_pos hp]; simp
        · rw [if_neg hp, if_neg hp, if_neg hp]
    · simp only [mergeAux, if_neg hty]
      have h2 := ih s
      rw [segTexts_cons, segTexts_cons]
      by_cases hp : p current.type
      · rw [if_pos hp, if_pos hp]
        constructor
        · rcases h3 : (segTexts p (mergeAux s rest)) with _ | ⟨z, zs⟩
          · have h4 : segTexts p (s :: rest) = [] := (h2.2.mp h3)
            rw [h4]
          · have h4 : segTexts p (s :: rest) ≠ [] := by
              intro hc
              rw [h2.2.mpr hc] at h3
              exact absurd h3.symm (by simp)
            have h5 : joinSp (z :: zs) = joinSp (segTexts p (s :: rest)) := by
              rw [← h3]; exact h2.1
            rw [joinSp_cons_of_ne_nil _ _ (List.cons_ne_nil z zs),
              joinSp_cons_of_ne_nil _ _ h4, h5]
        · simp
      · rw [if_neg hp, if_neg hp]
        exact h2

/-- Merging preserves the space-joined concatenation of the selected
segment texts, for any type-based selection. -/
theorem mergeAndFormatSegments_segTexts (p : SegType → Bool) (l : List DiffSegment) :
    joinSp (segTexts p (mergeAndFormatSegments l)) = joinSp (segTexts p l) := by
  cases l with
  | nil => rfl
  | cons s rest => exact (mergeAux_segTexts p rest s).1


/-- A well-formed token: nonempty and whitespace-free, as produced by
`tokenizeWords`. -/
def goodTok (t : JStr) : Prop := t ≠ [] ∧ ∀ c ∈ t, isWs c = false

theorem splitEveryWs_ne_nil (s : JStr) : splitEveryWs s ≠ [] := by
  cases s with
  | nil => simp [splitEveryWs]
  | cons c cs =>
    simp only [splitEveryWs]
    rcases h : splitEveryWs cs with _ | ⟨t, ts⟩
    · simp
    · by_cases hc : isWs c
      · simp [hc]
      · simp [hc]

theorem splitEveryWs_cons_eq (c : Char) (cs : JStr) (t : JStr) (ts : List JStr)
    (h : splitEveryWs cs = t :: ts) :
    splitEveryWs (c :: cs) = if isWs c then [] :: t :: ts else (c :: t) :: ts := by
  simp only [splitEveryWs, h]

theorem splitEveryWs_chars (s : JStr) :
    ∀ t ∈ splitEveryWs s, ∀ c ∈ t, isWs c = false := by
  induction s with
  | nil => intro t ht; simp [splitEveryWs] at ht; simp [ht]
  | cons c cs ih =>
    intro t ht
    rcases h : splitEveryWs cs with _ | ⟨t₀, ts⟩
    · exact absurd h (splitEveryWs_ne_nil cs)
    · rw [splitEveryWs_cons_eq c cs t₀ ts h] at ht
      by_cases hc : isWs c
      · rw [if_pos hc] at ht
        rcases List.mem_cons.mp ht with ht | ht
        · simp [ht]
        · exact ih t (by rw [h]; exact ht)
      · rw [if_neg hc] at ht
        rcases List.mem_cons.mp ht with ht | ht
        · intro d hd
          rw [ht] at hd
          rcases List.mem_cons.mp hd with hd | hd
          · rw [hd]; simpa using hc
          · exact ih t₀ (by rw [h]; simp) d hd
        · exact ih t (by rw [h]; simp [ht])

theorem collapseMid_subset (l : List JStr) : ∀ t ∈ collapseMid l, t ∈ l := by
  induction l with
  | nil => simp [collapseMid]
  | cons x xs ih =>
    intro t ht
    cases xs with
    | nil => simp [collapseMid] at ht; simp [ht]
    | cons y ys =>
      simp only [collapseMid] at ht
      by_cases hx : x = []
      · rw [if_pos hx] at ht
        exact List.mem_cons_of_mem x (ih t ht)
      · rw [if_neg hx] at ht
        rcases List.mem_cons.mp ht with ht | ht
        · simp [ht]
        · exact List.mem_cons_of_mem x (ih t ht)

theorem jsSplitWs_eq (s : JStr) (t : JStr) (ts : List JStr)
    (h : splitEveryWs s = t :: ts) :
    jsSplitWs s = t :: collapseMid ts := by
  simp only [jsSplitWs, h]

theorem jsSplitWs_subset (s : JStr) : ∀ t ∈ jsSplitWs s, t ∈ splitEveryWs s := by
  intro t ht
  rcases h : splitEveryWs s with _ | ⟨t₀, ts⟩
  · exact absurd h (splitEveryWs_ne_nil s)
  · rw [jsSplitWs_eq s t₀ ts h] at ht
    rcases List.mem_cons.mp ht with ht | ht
    · simp [ht]
    · exact List.mem_cons_of_mem t₀ (collapseMid_subset ts t ht)

/-- Every token produced by `tokenizeWords` is nonempty and contains no
whitespace. -/
theorem tokenizeWords_good (s : JStr) : ∀ t ∈ tokenizeWords s, goodTok t := by
  intro t ht
  simp only [tokenizeWords, List.mem_filter] at ht
  refine ⟨by simpa using ht.2, ?_⟩
  exact splitEveryWs_chars (jsTrim s) t (jsSplitWs_subset (jsTrim s) t ht.1)

theorem splitEveryWs_wsfree (t : JStr) (h : ∀ c ∈ t, isWs c = false) :
    splitEveryWs t = [t] := by
  induction t with
  | nil => rfl
  | cons c cs ih =>
    have hc : isWs c = false := h c (by simp)
    have hcs : splitEveryWs cs = [cs] := ih (fun d hd => h d (by simp [hd]))
    rw [splitEveryWs_cons_eq c cs cs [] hcs, hc]
    simp

theorem splitEveryWs_append_wsfree (t : JStr) (h : ∀ c ∈ t, isWs c = false) (r : JStr)
    (h₀ : JStr) (ts : List JStr) (hr : splitEveryWs r = h₀ :: ts) :
    splitEveryWs (t ++ r) = (t ++ h₀) :: ts := by
  induction t with
  | nil => simpa using hr
  | cons c cs ih =>
    have hc : isWs c = false := h c (by simp)
    have hcs := ih (fun d hd => h d (by simp [hd]))
    rw [List.cons_append, splitEveryWs_cons_eq c (cs ++ r) (cs ++ h₀) ts hcs, hc]
    simp

theorem splitEveryWs_joinSp (tokens : List JStr) (hne : tokens ≠ [])
    (hgood : ∀ t ∈ tokens, goodTok t) :
    splitEveryWs (joinSp tokens) = tokens := by
  induction tokens with
  | nil => exact absurd rfl hne
  | cons t ts ih =>
    cases ts with
    | nil =>
      exact splitEveryWs_wsfree t (hgood t (by simp)).2
    | cons u us =>
      have hts : splitEveryWs (joinSp (u :: us)) = u :: us :=
        ih (by simp) (fun x hx => hgood x (List.mem_cons_of_mem t hx))
      have hsp : splitEveryWs (' ' :: joinSp (u :: us)) = [] :: u :: us := by
        rw [splitEveryWs_cons_eq ' ' (joinSp (u :: us)) u us hts]
        have hws : isWs ' ' = true := by decide
        rw [hws]
        simp
      rw [joinSp_cons_of_ne_nil t (u :: us) (by simp)]
      rw [splitEveryWs_append_wsfree t (hgood t (by simp)).2 _ [] (u :: us) hsp]
      simp

theorem collapseMid_id (l : List JStr) (h : ∀ x ∈ l, x ≠ []) : collapseMid l = l := by
  induction l with
  | nil => rfl
  | cons x xs ih =>
    cases xs with
    | nil => rfl
    | cons y ys =>
      have hx : x ≠ [] := h x (by simp)
      simp only [collapseMid, if_neg hx]
      rw [ih (fun z hz => h z (List.mem_cons_of_mem x hz))]

/-- Splitting a space-joined list of well-formed tokens recovers the
tokens. -/
theorem jsSplitWs_joinSp (tokens : List JStr) (hne : tokens ≠ [])
    (hgood : ∀ t ∈ tokens, goodTok t) :
    jsSplitWs (joinSp tokens) = tokens := by
  cases tokens with
  | nil => exact absurd rfl hne
  | cons t ts =>
    rw [jsSplitWs_eq (joinSp (t :: ts)) t ts (splitEveryWs_joinSp (t :: ts) hne hgood)]
    rw [collapseMid_id ts (fun x hx => (hgood x (List.mem_cons_of_mem t hx)).1)]

theorem joinSp_head_nonWs (tokens : List JStr) (hne : tokens ≠ [])
    (hgood : ∀ t ∈ tokens, goodTok t) :
    ∃ c r, joinSp tokens = c :: r ∧ isWs c = false := by
  cases tokens with
  | nil => exact absurd rfl hne
  | cons t ts =>
    have ht := hgood t (by simp)
    rcases hh : t with _ | ⟨c, cs⟩
    · exact absurd hh ht.1
    · have hc : isWs c = false := ht.2 c (by rw [hh]; simp)
      cases ts with
      | nil => exact ⟨c, cs, by simp [joinSp], hc⟩
      | cons u us =>
        refine ⟨c, cs ++ ' ' :: joinSp (u :: us), ?_, hc⟩
        rw [joinSp_cons_of_ne_nil _ _ (by simp)]
        simp

theorem joinSp_last_nonWs (tokens : List JStr) (hne : tokens ≠ [])
    (hgood : ∀ t ∈ tokens, goodTok t) :
    ∃ c r, (joinSp tokens).reverse = c :: r ∧ isWs c = false := by
  induction tokens with
  | nil => exact absurd rfl hne
  | cons t ts ih =>
    cases ts with
    | nil =>
      have ht := hgood t (by simp)
      rcases hrev : t.reverse with _ | ⟨c, cs⟩
      · exact absurd (by simpa using hrev) ht.1
      · refine ⟨c, cs, by simpa [joinSp] using hrev, ht.2 c ?_⟩
        have hmem : c ∈ t.reverse := by rw [hrev]; simp
        simpa using hmem
    | cons u us =>
      rcases ih (by simp) (fun x hx => hgood x (List.mem_cons_of_mem t hx)) with
        ⟨c, r, hcr, hc⟩
      refine ⟨c, r ++ ' ' :: t.reverse, ?_, hc⟩
      rw [joinSp_cons_of_ne_nil t (u :: us) (by simp), List.reverse_append,
        List.reverse_cons, hcr]
      simp

/-- Trimming a space-joined list of well-formed tokens is a no-op. -/
theorem jsTrim_joinSp (tokens : List JStr) (hne : tokens ≠ [])
    (hgood : ∀ t ∈ tokens, goodTok t) :
    jsTrim (joinSp tokens) = joinSp tokens := by
  rcases joinSp_head_nonWs tokens hne hgood with ⟨c, r, hcr, hc⟩
  rcases joinSp_last_nonWs tokens hne hgood with ⟨d, q, hdq, hd⟩
  simp only [jsTrim]
  rw [hcr, List.dropWhile_cons, hc]
  simp only [Bool.false_eq_true, if_false]
  rw [← hcr, hdq, List.dropWhile_cons, hd]
  simp only [Bool.false_eq_true, if_false]
  rw [← hdq, List.reverse_reverse]

/-- Tokenizing a space-joined list of well-formed tokens recovers the
tokens. -/
theorem tokenizeWords_joinSp (tokens : List JStr) (hne : tokens ≠ [])
    (hgood : ∀ t ∈ tokens, goodTok t) :
    tokenizeWords (joinSp tokens) = tokens := by
  simp only [tokenizeWords, jsTrim_joinSp tokens hne hgood,
    jsSplitWs_joinSp tokens hne hgood]
  exact List.filter_eq_self.mpr (fun t ht => by simpa using (hgood t ht).1)

theorem mem_segTexts_of_mem (p : SegType → Bool) (l : List DiffSegment) (seg : DiffSegment)
    (hmem : seg ∈ l) (hp : p seg.type = true) : seg.text ∈ segTexts p l := by
  simp only [segTexts, List.mem_map]
  exact ⟨seg, List.mem_filter.mpr ⟨hmem, hp⟩, rfl⟩

/-- Every text emitted by the backtrack is one of the cursor tokens. -/
theorem backtrackF_text_mem (fuel : Nat) (ro rs : List JStr)
    (hfuel : ro.length + rs.length ≤ fuel) :
    ∀ seg ∈ backtrackF fuel ro rs, seg.text ∈ ro ∨ seg.text ∈ rs := by
  intro seg hseg
  cases hty : seg.type with
  | added =>
    have : seg.text ∈ segTexts keepSugg (backtrackF fuel ro rs) :=
      mem_segTexts_of_mem keepSugg _ seg hseg (by simp [keepSugg, hty])
    rw [backtrackF_segTexts_keepSugg fuel ro rs hfuel] at this
    exact Or.inr (by simpa using this)
  | deleted =>
    have : seg.text ∈ segTexts keepOrig (backtrackF fuel ro rs) :=
      mem_segTexts_of_mem keepOrig _ seg hseg (by simp [keepOrig, hty])
    rw [backtrackF_segTexts_keepOrig fuel ro rs hfuel] at this
    exact Or.inl (by simpa using this)
  | unchanged =>
    have : seg.text ∈ segTexts keepOrig (backtrackF fuel ro rs) :=
      mem_segTexts_of_mem keepOrig _ seg hseg (by simp [keepOrig, hty])
    rw [backtrackF_segTexts_keepOrig fuel ro rs hfuel] at this
    exact Or.inl (by simpa using this)

/-- Every raw segment of the word diff over tokenized inputs carries a
well-formed token. -/
theorem generateWordDiff_good (o s : JStr) :
    ∀ seg ∈ generateWordDiff (tokenizeWords o) (tokenizeWords s), goodTok seg.text := by
  intro seg hseg
  have := backtrackF_text_mem ((tokenizeWords o).length + (tokenizeWords s).length)
    (tokenizeWords o).reverse (tokenizeWords s).reverse (by simp) seg hseg
  rcases this with h | h
  · exact tokenizeWords_good o seg.text (by simpa using h)
  · exact tokenizeWords_good s seg.text (by simpa using h)

/-- A merged segment's text is the space-join of a nonempty list of
well-formed tokens. -/
def SegTokens (s : DiffSegment) (ts : List JStr) : Prop :=
  ts ≠ [] ∧ (∀ t ∈ ts, goodTok t) ∧ s.text = joinSp ts

theorem mergeAux_tokens :
    ∀ (rest : List DiffSegment) (current : DiffSegment) (cts : List JStr),
      SegTokens current cts → (∀ s ∈ rest, goodTok s.text) →
      ∀ m ∈ mergeAux current rest, ∃ ts, SegTokens m ts := by
  intro rest
  induction rest with
  | nil =>
    intro current cts hcur _ m hm
    simp only [mergeAux, List.mem_singleton] at hm
    exact ⟨cts, hm ▸ hcur⟩
  | cons s rest ih =>
    intro current cts hcur hrest m hm
    by_cases hty : s.type = current.type
    · rw [mergeAux, if_pos hty] at hm
      have hnew : SegTokens ⟨current.type, current.text ++ ' ' :: s.text⟩ (cts ++ [s.text]) := by
        refine ⟨by simp, ?_, ?_⟩
        · intro t ht
          rcases List.mem_append.mp ht with ht | ht
          · exact hcur.2.1 t ht
          · rw [List.mem_singleton.mp ht]
            exact hrest s (by simp)
        · show current.text ++ ' ' :: s.text = joinSp (cts ++ [s.text])
          rw [joinSp_append cts [s.text] hcur.1 (by simp), hcur.2.2]
          rfl
      exact ih ⟨current.type, current.text ++ ' ' :: s.text⟩ (cts ++ [s.text]) hnew
        (fun x hx => hrest x (List.mem_cons_of_mem s hx)) m hm
    · rw [mergeAux, if_neg hty] at hm
      rcases List.mem_cons.mp hm with hm | hm
      · exact ⟨cts, hm ▸ hcur⟩
      · exact ih s [s.text] ⟨by simp, by simpa using hrest s (by simp), rfl⟩
          (fun x hx => hrest x (List.mem_cons_of_mem s hx)) m hm

/-- Every merged segment over well-formed raw segments is a space-joined
nonempty token list. -/
theorem mergeAndFormatSegments_tokens (l : List DiffSegment)
    (h : ∀ s ∈ l, goodTok s.text) :
    ∀ m ∈ mergeAndFormatSegments l, ∃ ts, SegTokens m ts := by
  cases l with
  | nil => simp [mergeAndFormatSegments]
  | cons s rest =>
    exact mergeAux_tokens rest s [s.text]
      ⟨by simp, by simpa using h s (by simp), rfl⟩
      (fun x hx => h x (List.mem_cons_of_mem s hx))

/-- Number of tokens of a segment text, the specification-level token count. -/
def tokCount (s : DiffSegment) : Nat := (tokenizeWords s.text).length

theorem segTokens_counts (s : DiffSegment) (ts : List JStr) (h : SegTokens s ts) :
    segSplitLen s = ts.length ∧ tokCount s = ts.length := by
  constructor
  · rw [segSplitLen, h.2.2, jsSplitWs_joinSp ts h.1 h.2.1]
  · rw [tokCount, h.2.2, tokenizeWords_joinSp ts h.1 h.2.1]

/-- Token count, summed over the non-unchanged segments. -/
def changedTokens (l : List DiffSegment) : Nat :=
  ((l.filter fun s => decide (s.type ≠ SegType.unchanged)).map tokCount).sum

/-- Token count, summed over all segments. -/
def totalTokens (l : List DiffSegment) : Nat := (l.map tokCount).sum

theorem countWords_foldl (l : List DiffSegment)
    (h : ∀ s ∈ l, segSplitLen s = tokCount s) :
    ∀ a b, l.foldl
        (fun p s =>
          let wc := segSplitLen s
          ((if s.type ≠ SegType.unchanged then p.1 + wc else p.1), p.2 + wc))
        (a, b) =
      (a + changedTokens l, b + totalTokens l) := by
  induction l with
  | nil => intro a b; simp [changedTokens, totalTokens]
  | cons s rest ih =>
    intro a b
    have hs := h s (by simp)
    have hrest := fun x hx => h x (List.mem_cons_of_mem s hx)
    have hch : changedTokens (s :: rest) =
        (if s.type = SegType.unchanged then 0 else tokCount s) + changedTokens rest := by
      by_cases hty : s.type = SegType.unchanged
      · simp [changedTokens, List.filter_cons, hty]
      · simp [changedTokens, List.filter_cons, hty]
    have htot : totalTokens (s :: rest) = tokCount s + totalTokens rest := by
      simp [totalTokens]
    simp only [List.foldl_cons]
    rw [ih hrest, hch, htot]
    by_cases hty : s.type = SegType.unchanged
    · rw [if_neg (show ¬ s.type ≠ SegType.unchanged from by simp [hty]), if_pos hty, hs]
      apply Prod.ext <;> dsimp only <;> omega
    · rw [if_pos hty, if_neg hty, hs]
      apply Prod.ext <;> dsimp only <;> omega

theorem countWords_eq (l : List DiffSegment)
    (h : ∀ s ∈ l, segSplitLen s = tokCount s) :
    countWords l = (changedTokens l, totalTokens l) := by
  have h0 := countWords_foldl l h 0 0
  simp only [Nat.zero_add] at h0
  exact h0

/-- The merged segment list computed on the main path of
`generateSmartDiff`. -/
def mainSegments (o s : JStr) : List DiffSegment :=
  mergeAndFormatSegments (generateWordDiff (tokenizeWords o) (tokenizeWords s))

theorem gsd_segments (o s : JStr) (ho : o ≠ []) (hs : s ≠ []) :
    (generateSmartDiff o s).segments = mainSegments o s := by
  simp only [generateSmartDiff, mainSegments]
  rw [if_neg (by simp [ho]), if_neg ho, if_neg hs]

theorem gsd_complexity (o s : JStr) (ho : o ≠ []) (hs : s ≠ []) :
    (generateSmartDiff o s).changeComplexity =
      calculateComplexity (mainSegments o s) (tokenizeWords o).length := by
  simp only [generateSmartDiff, mainSegments]
  rw [if_neg (by simp [ho]), if_neg ho, if_neg hs]

theorem gsd_granular (o s : JStr) (ho : o ≠ []) (hs : s ≠ []) :
    (generateSmartDiff o s).shouldUseGranular =
      (!decide (calculateComplexity (mainSegments o s) (tokenizeWords o).length > (7 : ℚ)/10) &&
        !decide ((mainSegments o s).length > 8) &&
        ((mainSegments o s).any fun seg =>
          decide (seg.type = SegType.unchanged) && decide (2 ≤ segSplitLen seg))) := by
  simp only [generateSmartDiff, mainSegments]
  rw [if_neg (by simp [ho]), if_neg ho, if_neg hs]

theorem mainSegments_counts (o s : JStr) :
    ∀ m ∈ mainSegments o s, segSplitLen m = tokCount m := by
  intro m hm
  simp only [mainSegments] at hm
  obtain ⟨ts, hts⟩ :=
    mergeAndFormatSegments_tokens _ (generateWordDiff_good o s) m hm
  have h := segTokens_counts m ts hts
  rw [h.1, h.2]

/-- Readability decision of the smart diff, characterised: granular rendering
is chosen exactly when the change ratio is at most 0.7, there are at most 8
segments, and some unchanged segment carries at least two tokens. -/
theorem gsd_granular_iff (o s : JStr) (ho : o ≠ []) (hs : s ≠ []) :
    (generateSmartDiff o s).shouldUseGranular = true ↔
      (generateSmartDiff o s).changeComplexity ≤ (7 : ℚ)/10 ∧
        (generateSmartDiff o s).segments.length ≤ 8 ∧
        ∃ seg ∈ (generateSmartDiff o s).segments,
          seg.type = SegType.unchanged ∧ 2 ≤ tokCount seg := by
  rw [gsd_granular o s ho hs, gsd_complexity o s ho hs, gsd_segments o s ho hs]
  simp only [Bool.and_eq_true, Bool.not_eq_true', decide_eq_false_iff_not, not_lt,
    List.any_eq_true, decide_eq_true_eq, gt_iff_lt]
  constructor
  · rintro ⟨⟨h1, h2⟩, seg, hmem, hty2, hcnt⟩
    refine ⟨h1, by simpa using h2, seg, hmem, hty2, ?_⟩
    rwa [← mainSegments_counts o s seg hmem]
  · rintro ⟨h1, h2, seg, hmem, hty2, hcnt⟩
    refine ⟨⟨h1, by simpa using h2⟩, seg, hmem, hty2, ?_⟩
    rwa [mainSegments_counts o s seg hmem]

theorem backtrackF_nil_left :
    ∀ fuel l, l.length ≤ fuel →
      backtrackF fuel [] l = (l.map fun y => (⟨SegType.added, y⟩ : DiffSegment)).reverse := by
  intro fuel
  induction fuel with
  | zero =>
    intro l h
    cases l with
    | nil => simp [backtrackF]
    | cons y l => simp at h
  | succ fuel ih =>
    intro l h
    cases l with
    | nil => simp [backtrackF]
    | cons y l =>
      simp only [backtrackF]
      rw [ih l (by simp at h ⊢; omega)]
      simp

theorem mergeAux_uniform (ty : SegType) :
    ∀ (ts : List JStr) (a : JStr),
      mergeAux ⟨ty, a⟩ (ts.map fun x => (⟨ty, x⟩ : DiffSegment)) = [⟨ty, joinSp (a :: ts)⟩] := by
  intro ts
  induction ts with
  | nil => intro a; simp [mergeAux, joinSp]
  | cons t ts ih =>
    intro a
    simp only [List.map_cons, mergeAux, if_pos rfl]
    rw [ih (a ++ ' ' :: t)]
    rw [joinSp_merge_head]
    simp

theorem mergeAndFormatSegments_uniform (ty : SegType) (t : JStr) (ts : List JStr) :
    mergeAndFormatSegments ((t :: ts).map fun x => (⟨ty, x⟩ : DiffSegment)) =
      [⟨ty, joinSp (t :: ts)⟩] := by
  simp only [List.map_cons, mergeAndFormatSegments]
  exact mergeAux_uniform ty ts t

/-- The exact change ratio of the smart diff on the main path: changed
tokens over max(total tokens, original token count). -/
theorem gsd_complexity_formula (o s : JStr) (ho : o ≠ []) (hs : s ≠ [])
    (htok : tokenizeWords o ≠ [] ∨ tokenizeWords s ≠ []) :
    (generateSmartDiff o s).changeComplexity =
      (changedTokens (generateSmartDiff o s).segments : ℚ) /
        ((max (totalTokens (generateSmartDiff o s).segments)
          (tokenizeWords o).length : Nat) : ℚ) := by
  rw [gsd_complexity o s ho hs, gsd_segments o s ho hs]
  by_cases h0 : tokenizeWords o = []
  · have hsne : tokenizeWords s ≠ [] := by
      rcases htok with h | h
      · exact absurd h0 h
      · exact h
    obtain ⟨u, us, hsugg⟩ : ∃ u us, tokenizeWords s = u :: us := by
      rcases hx : tokenizeWords s with _ | ⟨u, us⟩
      · exact absurd hx hsne
      · exact ⟨u, us, rfl⟩
    have hseg : mainSegments o s = [⟨SegType.added, joinSp (tokenizeWords s)⟩] := by
      rw [mainSegments, generateWordDiff, h0]
      simp only [List.reverse_nil, List.length_nil, Nat.zero_add]
      rw [backtrackF_nil_left (tokenizeWords s).length (tokenizeWords s).reverse
        (by simp)]
      rw [← List.map_reverse, List.reverse_reverse, hsugg]
      exact mergeAndFormatSegments_uniform SegType.added u us
    rw [hseg, calculateComplexity, if_pos (by rw [h0]; rfl)]
    have hST : SegTokens ⟨SegType.added, joinSp (tokenizeWords s)⟩ (tokenizeWords s) :=
      ⟨hsne, tokenizeWords_good s, rfl⟩
    have hc := (segTokens_counts _ _ hST).2
    have hch : changedTokens [⟨SegType.added, joinSp (tokenizeWords s)⟩] =
        (tokenizeWords s).length := by
      simp [changedTokens, hc]
    have htt : totalTokens [⟨SegType.added, joinSp (tokenizeWords s)⟩] =
        (tokenizeWords s).length := by
      simp [totalTokens, hc]
    rw [hch, htt, h0]
    simp only [List.length_nil, Nat.max_zero]
    have hn : ((tokenizeWords s).length : ℚ) ≠ 0 := by
      intro hcontra
      have hlen : (tokenizeWords s).length = 0 := by exact_mod_cast hcontra
      rw [hsugg] at hlen
      simp at hlen
    rw [div_self hn]
  · rw [calculateComplexity, if_neg (by simpa using h0)]
    rw [countWords_eq _ (mainSegments_counts o s)]

/-- C4: for non-empty original and suggested strings (with at least one real
token between them, so that the specified ratio is well defined),
`generateSmartDiff` returns changeRatio equal to the token count of the
non-unchanged segments divided by max(total token count of the merged
segments, original token count), and returns useGranular = true if and only
if the ratio is at most 0.7, the merged segment count is at most 8, and at
least one unchanged segment contains at least 2 tokens. -/
theorem c4_changeRatio_and_granular (o s : JStr) (ho : o ≠ []) (hs : s ≠ [])
    (htok : tokenizeWords o ≠ [] ∨ tokenizeWords s ≠ []) :
    (generateSmartDiff o s).changeComplexity =
        (changedTokens (generateSmartDiff o s).segments : ℚ) /
          ((max (totalTokens (generateSmartDiff o s).segments)
            (tokenizeWords o).length : Nat) : ℚ) ∧
      ((generateSmartDiff o s).shouldUseGranular = true ↔
        (generateSmartDiff o s).changeComplexity ≤ (7 : ℚ)/10 ∧
          (generateSmartDiff o s).segments.length ≤ 8 ∧
          ∃ seg ∈ (generateSmartDiff o s).segments,
            seg.type = SegType.unchanged ∧ 2 ≤ tokCount seg) :=
  ⟨gsd_complexity_formula o s ho hs htok, gsd_granular_iff o s ho hs⟩

/-- Witness for C4 at original "a b" and suggested "a c". -/
theorem c4_changeRatio_and_granular_witness :
    ((("a b".toList) : JStr) ≠ [] ∧ (("a c".toList) : JStr) ≠ [] ∧
        (tokenizeWords ("a b".toList) ≠ [] ∨ tokenizeWords ("a c".toList) ≠ [])) ∧
      ((generateSmartDiff ("a b".toList) ("a c".toList)).changeComplexity =
          (changedTokens (generateSmartDiff ("a b".toList) ("a c".toList)).segments : ℚ) /
            ((max (totalTokens (generateSmartDiff ("a b".toList) ("a c".toList)).segments)
              (tokenizeWords ("a b".toList)).length : Nat) : ℚ) ∧
        ((generateSmartDiff ("a b".toList) ("a c".toList)).shouldUseGranular = true ↔
          (generateSmartDiff ("a b".toList) ("a c".toList)).changeComplexity ≤ (7 : ℚ)/10 ∧
            (generateSmartDiff ("a b".toList) ("a c".toList)).segments.length ≤ 8 ∧
            ∃ seg ∈ (generateSmartDiff ("a b".toList) ("a c".toList)).segments,
              seg.type = SegType.unchanged ∧ 2 ≤ tokCount seg)) :=
  ⟨⟨by decide, by decide, by decide⟩,
    c4_changeRatio_and_granular ("a b".toList) ("a c".toList)
      (by decide) (by decide) (by decide)⟩

/-- C5 (amended): for every string with at least two whitespace-separated
tokens, diff(a, a) yields exactly one segment, of type unchanged, whose text
is the tokens of a rejoined with single spaces (equal to a itself whenever a
is already in that normalised form), a change ratio of 0, and
useGranular = true.  As stated the claim fails: a one-token input yields
useGranular = false, and an input with doubled spaces does not reproduce its
own text. -/
theorem c5_diag (a : JStr) (h2 : 2 ≤ (tokenizeWords a).length) :
    (generateSmartDiff a a).segments =
        [⟨SegType.unchanged, joinSp (tokenizeWords a)⟩] ∧
      (generateSmartDiff a a).changeComplexity = 0 ∧
      (generateSmartDiff a a).shouldUseGranular = true := by
  have ha : a ≠ [] := by
    intro h
    rw [h] at h2
    have hnil : tokenizeWords ([] : JStr) = [] := by decide
    rw [hnil] at h2
    simp at h2
  obtain ⟨t, ts, htok⟩ : ∃ t ts, tokenizeWords a = t :: ts := by
    rcases hx : tokenizeWords a with _ | ⟨t, ts⟩
    · rw [hx] at h2; simp at h2
    · exact ⟨t, ts, rfl⟩
  have hseg : mainSegments a a = [⟨SegType.unchanged, joinSp (tokenizeWords a)⟩] := by
    rw [mainSegments, generateWordDiff_diag, htok]
    rw [mergeAndFormatSegments_uniform SegType.unchanged t ts]
  have hsegs : (generateSmartDiff a a).segments =
      [⟨SegType.unchanged, joinSp (tokenizeWords a)⟩] := by
    rw [gsd_segments a a ha ha, hseg]
  have hST : SegTokens ⟨SegType.unchanged, joinSp (tokenizeWords a)⟩ (tokenizeWords a) :=
    ⟨by rw [htok]; simp, tokenizeWords_good a, rfl⟩
  have hcc : (generateSmartDiff a a).changeComplexity = 0 := by
    rw [gsd_complexity a a ha ha, hseg, calculateComplexity, if_neg (by rw [htok]; simp)]
    have h1 : (countWords [⟨SegType.unchanged, joinSp (tokenizeWords a)⟩]).1 = 0 := by
      simp [countWords]
    rw [h1]
    simp
  refine ⟨hsegs, hcc, ?_⟩
  rw [gsd_granular_iff a a ha ha]
  refine ⟨by rw [hcc]; norm_num, by rw [hsegs]; simp, ?_⟩
  refine ⟨⟨SegType.unchanged, joinSp (tokenizeWords a)⟩, by rw [hsegs]; simp, rfl, ?_⟩
  rw [(segTokens_counts _ _ hST).2]
  exact h2

/-- Witness for C5 (amended) at the two-token string "hi there". -/
theorem c5_diag_witness :
    2 ≤ (tokenizeWords ("hi there".toList)).length ∧
      ((generateSmartDiff ("hi there".toList) ("hi there".toList)).segments =
          [⟨SegType.unchanged, joinSp (tokenizeWords ("hi there".toList))⟩] ∧
        (generateSmartDiff ("hi there".toList) ("hi there".toList)).changeComplexity = 0 ∧
        (generateSmartDiff ("hi there".toList) ("hi there".toList)).shouldUseGranular = true) :=
  ⟨by decide, c5_diag ("hi there".toList) (by decide)⟩

/-- Counterexample to C5 as stated: on the single-token string "hello",
diff(a, a) yields useGranular = false (no unchanged segment has two or more
tokens), and on "a  b" (doubled space) the single unchanged segment's text is
the normalised "a b", not a itself. -/
theorem c5_counterexample :
    (generateSmartDiff ("hello".toList) ("hello".toList)).shouldUseGranular = false ∧
      (generateSmartDiff ("a  b".toList) ("a  b".toList)).segments ≠
        [⟨SegType.unchanged, "a  b".toList⟩] := by
  constructor
  · have hiff := gsd_granular_iff ("hello".toList) ("hello".toList) (by decide) (by decide)
    cases hb : (generateSmartDiff ("hello".toList) ("hello".toList)).shouldUseGranular with
    | false => rfl
    | true =>
      exfalso
      obtain ⟨-, -, seg, hmem, hty, hcnt⟩ := hiff.mp hb
      have hsegs : (generateSmartDiff ("hello".toList) ("hello".toList)).segments =
          [⟨SegType.unchanged, "hello".toList⟩] := by decide
      rw [hsegs] at hmem
      have hseg2 : seg = ⟨SegType.unchanged, "hello".toList⟩ := by simpa using hmem
      rw [hseg2] at hcnt
      exact absurd hcnt (by decide)
  · decide

/-- C6 (amended): for all non-empty strings a and b, joining with single
spaces the texts of the unchanged and deleted segments of diff(a, b)
reproduces the whitespace-normalisation of a (its tokens joined by single
spaces), and likewise the unchanged and added segments reproduce the
normalisation of b; for inputs already in normalised form this is a lossless
reconstruction.  As stated (lossless reproduction of the raw inputs) the
claim fails on inputs with irregular whitespace. -/
theorem c6_reconstruct (a b : JStr) (ha : a ≠ []) (hb : b ≠ []) :
    joinSp (segTexts keepOrig (generateSmartDiff a b).segments) =
        joinSp (tokenizeWords a) ∧
      joinSp (segTexts keepSugg (generateSmartDiff a b).segments) =
        joinSp (tokenizeWords b) := by
  rw [gsd_segments a b ha hb, mainSegments]
  constructor
  · rw [mergeAndFormatSegments_segTexts keepOrig]
    rw [generateWordDiff, backtrackF_segTexts_keepOrig _ _ _ (by simp)]
    simp
  · rw [mergeAndFormatSegments_segTexts keepSugg]
    rw [generateWordDiff, backtrackF_segTexts_keepSugg _ _ _ (by simp)]
    simp

/-- Witness for C6 (amended) at a = "x y", b = "x z". -/
theorem c6_reconstruct_witness :
    ((("x y".toList) : JStr) ≠ [] ∧ (("x z".toList) : JStr) ≠ []) ∧
      (joinSp (segTexts keepOrig (generateSmartDiff ("x y".toList) ("x z".toList)).segments) =
          joinSp (tokenizeWords ("x y".toList)) ∧
        joinSp (segTexts keepSugg (generateSmartDiff ("x y".toList) ("x z".toList)).segments) =
          joinSp (tokenizeWords ("x z".toList))) :=
  ⟨⟨by decide, by decide⟩, c6_reconstruct ("x y".toList) ("x z".toList) (by decide) (by decide)⟩

/-- Counterexample to C6 as stated: for a = "a  b" (doubled space) and
b = "a b", the unchanged and deleted segments of diff(a, b), concatenated in
order (whether joined with single spaces or appended directly), yield the
normalised "a b" and fail to reproduce a. -/
theorem c6_counterexample :
    joinSp (segTexts keepOrig
        (generateSmartDiff ("a  b".toList) ("a b".toList)).segments) ≠ ("a  b".toList) ∧
      (segTexts keepOrig
        (generateSmartDiff ("a  b".toList) ("a b".toList)).segments).flatten ≠ ("a  b".toList) := by
  decide

/-- Status of a conversation (`Comment.status` in DocumentTypes.ts). -/
inductive CommentStatus
  | pending
  | processing
  | suggestion_ready
  | applied
  | error
deriving DecidableEq

/-- Author of a threaded reply. -/
inductive ReplyRole
  | user
  | assistant
deriving DecidableEq

/-- Processing status of a user reply. -/
inductive ReplyStatus
  | pending
  | sent
  | error
deriving DecidableEq

/-- A threaded reply (`Reply` in DocumentTypes.ts); timestamps are modelled
as natural numbers. -/
structure Reply where
  id : JStr
  role : ReplyRole
  text : JStr
  timestamp : Nat
  status : Option ReplyStatus
  parentId : Option JStr
deriving DecidableEq

/-- A conversation record (`Comment` in DocumentTypes.ts, plus the
`markApplied` flag TextEditorView.tsx stores on it); Date fields are
modelled as natural numbers, optional fields as `Option` with `false`
standing for an absent boolean. -/
structure Comment where
  id : JStr
  textRange : Option (Nat × Nat)
  selectedText : JStr
  instruction : JStr
  status : CommentStatus
  aiSuggestion : Option JStr
  explanation : Option JStr
  timestamp : Nat
  errorMessage : Option JStr
  inlineVisible : Bool
  markApplied : Bool
  replies : List Reply
  isThreadExpanded : Bool
  lastActivity : Option Nat
deriving DecidableEq

/-- The conversation store `Record<string, Comment>`, modelled as an
association list in key insertion order (the enumeration order of a JS
object with string keys). -/
abbrev Store := List (JStr × Comment)

/-- Key lookup, `comments[id]`. -/
def storeGet (store : Store) (k : JStr) : Option Comment :=
  (store.find? (fun kv => decide (kv.1 = k))).map Prod.snd

/-- Key update `comments[id] = v`: replaces in place when the key exists,
appends otherwise (JS object key-order semantics). -/
def storeSet (store : Store) (k : JStr) (v : Comment) : Store :=
  if store.any (fun kv => decide (kv.1 = k)) then
    store.map (fun kv => if kv.1 = k then (k, v) else kv)
  else store ++ [(k, v)]

/-- The marks a character can carry: at most one commentHighlight mark
(identified by its commentId attribute, marks of one type being exclusive in
ProseMirror) and the two diff marks. -/
structure MarkSet where
  comment : Option JStr
  diffDel : Bool
  diffAdd : Bool
deriving DecidableEq

/-- The empty mark set. -/
def noMarks : MarkSet := ⟨none, false, false⟩

/-- One character of the document together with its marks. -/
structure CharM where
  ch : Char
  marks : MarkSet
deriving DecidableEq

/-- The rich-text document, modelled as its inline content: a sequence of
characters with marks.  Positions are zero-based character offsets. -/
abbrev Doc := List CharM

/-- The text nodes of the document: maximal runs of characters carrying the
same mark set, each with its text, exactly the normal form ProseMirror keeps
inline content in and the shape `doc.descendants` visits. -/
def runs : Doc → List (JStr × MarkSet)
  | [] => []
  | c :: cs =>
    match runs cs with
    | [] => [([c.ch], c.marks)]
    | (t, m) :: rest =>
      if c.marks = m then (c.ch :: t, m) :: rest
      else ([c.ch], c.marks) :: (t, m) :: rest

/-- The (minPos, maxPos) accumulator update of `findCommentMarkRange`: the
first marked node initialises the range, later ones widen it. -/
def combineRange : Option (Nat × Nat) → Nat → Nat → Option (Nat × Nat)
  | none, a, b => some (a, b)
  | some (x, y), a, b => some (min x a, max y b)

/-- Node-visiting loop of `findCommentMarkRange` from markHelpers.ts:
for every text node carrying the commentHighlight mark with this commentId,
widen (minPos, maxPos) by (pos, pos + node.textContent.length). -/
def fcmrAux (id : JStr) : List (JStr × MarkSet) → Nat → Option (Nat × Nat) → Option (Nat × Nat)
  | [], _, acc => acc
  | (t, m) :: rest, pos, acc =>
    fcmrAux id rest (pos + t.length)
      (if m.comment = some id then combineRange acc pos (pos + t.length) else acc)

/-- Model of `findCommentMarkRange` from markHelpers.ts: the minimal span
from the first to the last text node annotated with this conversation id, or
none when no node carries the annotation. -/
def findCommentMarkRange (doc : Doc) (id : JStr) : Option (Nat × Nat) :=
  fcmrAux id (runs doc) 0 none

/-- Give a character the commentHighlight mark with this id (replacing any
other comment mark, since ProseMirror marks of one type are exclusive). -/
def setCommentOnChar (id : JStr) (c : CharM) : CharM :=
  { c with marks := { c.marks with comment := some id } }

/-- Model of `transaction.addMark(from, to, commentHighlight{commentId})`:
every character in [from, to) gains the comment mark; an empty or inverted
range marks nothing. -/
def addCommentMark (doc : Doc) (id : JStr) (fromPos toPos : Nat) : Doc :=
  if toPos ≤ fromPos then doc
  else
    doc.take fromPos ++
      ((doc.drop fromPos).take (toPos - fromPos)).map (setCommentOnChar id) ++
      doc.drop toPos

/-- Strip the commentHighlight mark with this id from one character. -/
def clearCommentOnChar (id : JStr) (c : CharM) : CharM :=
  if c.marks.comment = some id then { c with marks := { c.marks with comment := none } } else c

/-- Model of `removeCommentMark` from markHelpers.ts: strips the comment
mark with this id from every node carrying it; the Boolean reports whether
any node carried it. -/
def removeCommentMark (doc : Doc) (id : JStr) : Doc × Bool :=
  (doc.map (clearCommentOnChar id), doc.any (fun c => decide (c.marks.comment = some id)))

/-- Model of `ensureCommentMarkApplied` from markHelpers.ts: a no-op when
the mark already sits at exactly the requested range, otherwise an addMark
over the range.  (The JS returns a success flag that is true in every path
that does not throw; the model returns the document.) -/
def ensureCommentMarkApplied (doc : Doc) (id : JStr) (fromPos toPos : Nat) : Doc :=
  match findCommentMarkRange doc id with
  | some existingRange =>
    if existingRange = (fromPos, toPos) then doc
    else addCommentMark doc id fromPos toPos
  | none => addCommentMark doc id fromPos toPos

/-- Set-collecting loop of `validateAndFixCommentMarks`: every commentId
attribute found on a text node joins the set, first appearance first (JS Set
insertion order). -/
def marksInDocAux : List (JStr × MarkSet) → List JStr → List JStr
  | [], acc => acc
  | (_, m) :: rest, acc =>
    marksInDocAux rest
      (match m.comment with
       | some id => if id ∈ acc then acc else acc ++ [id]
       | none => acc)

/-- The marksInDocument set of `validateAndFixCommentMarks`. -/
def marksInDocument (doc : Doc) : List JStr := marksInDocAux (runs doc) []

/-- Model of `editor.state.doc.textBetween(from, to)` on inline content. -/
def textBetween (doc : Doc) (fromPos toPos : Nat) : JStr :=
  ((doc.drop fromPos).take (toPos - fromPos)).map CharM.ch

/-- Model of `updateAllCommentRanges` from markHelpers.ts: re-resolve every
conversation's live annotation; when found, refresh the stored range and the
selected text from the live document; orphans (no live mark) are logged and
left unchanged. -/
def updateAllCommentRanges (doc : Doc) (comments : Store) : Store :=
  comments.map (fun kv =>
    match findCommentMarkRange doc kv.1 with
    | some r =>
      if kv.2.textRange ≠ some r ∨ kv.2.selectedText ≠ textBetween doc r.1 r.2 then
        (kv.1, { kv.2 with textRange := some r, selectedText := textBetween doc r.1 r.2 })
      else kv
    | none => kv)

/-- Validation report of `validateAndFixCommentMarks`. -/
structure ValidationReport where
  orphanedMarks : List JStr
  missingMarks : List JStr
  fixedMarks : List JStr
deriving DecidableEq

/-- Orphan-removal loop body of `validateAndFixCommentMarks`: a mark whose
id has no store entry is recorded as orphaned and stripped from the live
document. -/
def orphanStep (comments : Store) (st : Doc × List JStr) (mid : JStr) : Doc × List JStr :=
  if storeGet comments mid = none then ((removeCommentMark st.1 mid).1, st.2 ++ [mid])
  else st

/-- Missing-mark loop body of `validateAndFixCommentMarks`: a conversation
with a stored range whose id was not in the marksInDocument snapshot is
recorded missing, and its mark is re-applied (and recorded fixed) when the
stored range is within the current document bounds. -/
def missingStep (present : List JStr) (st : Doc × List JStr × List JStr)
    (kv : JStr × Comment) : Doc × List JStr × List JStr :=
  match kv.2.textRange with
  | some r =>
    if kv.1 ∈ present then st
    else
      if r.1 ≤ r.2 ∧ r.2 ≤ st.1.length then
        (ensureCommentMarkApplied st.1 kv.1 r.1 r.2, st.2.1 ++ [kv.1], st.2.2 ++ [kv.1])
      else (st.1, st.2.1 ++ [kv.1], st.2.2)
  | none => st

/-- Model of `validateAndFixCommentMarks` from markHelpers.ts: snapshot the
set of annotated ids, remove annotations with no matching conversation, then
re-apply annotations for conversations that have a stored range but were not
annotated, when the stored range is still within document bounds. -/
def validateAndFixCommentMarks (doc : Doc) (comments : Store) : Doc × ValidationReport :=
  let present := marksInDocument doc
  let st1 := present.foldl (orphanStep comments) (doc, [])
  let st2 := comments.foldl (missingStep present) (st1.1, [], [])
  (st2.1, ⟨st1.2, st2.2.1, st2.2.2⟩)

/-- Model of JS `hay.indexOf(needle)`: index of the first occurrence of
needle as a contiguous substring, none when absent. -/
def jsIndexOf (hay needle : JStr) : Option Nat :=
  if hay.take needle.length = needle then some 0
  else
    match hay with
    | [] => none
    | _ :: rest => (jsIndexOf rest needle).map (· + 1)

/-- Node-visiting loop of `findTextRangeInPM` from TextEditorView.tsx: the
first text node whose own text contains the search string (the scan does not
cross node boundaries) yields (pos + idx, pos + idx + length). -/
def ftrAux (search : JStr) : List (JStr × MarkSet) → Nat → Option (Nat × Nat)
  | [], _ => none
  | (t, _) :: rest, pos =>
    match jsIndexOf t search with
    | some idx => some (pos + idx, pos + idx + search.length)
    | none => ftrAux search rest (pos + t.length)

/-- Model of `findTextRangeInPM` from TextEditorView.tsx. -/
def findTextRangeInPM (doc : Doc) (searchText : JStr) : Option (Nat × Nat) :=
  if searchText = [] then none
  else ftrAux searchText (runs doc) 0

/-- Diff-mark scan of `handleAcceptSuggestion` (and the inline-preview
teardown): widen the bounds by every text node carrying a diffDel or diffAdd
mark. -/
def scanDiffAux : List (JStr × MarkSet) → Nat → Nat × Nat → Nat × Nat
  | [], _, st => st
  | (t, m) :: rest, pos, st =>
    scanDiffAux rest (pos + t.length)
      (if m.diffDel || m.diffAdd then (min st.1 pos, max st.2 (pos + t.length)) else st)

/-- Model of `handleAcceptSuggestion` from TextEditorView.tsx: guarded by
the conversation existing with a truthy aiSuggestion in suggestion_ready and
a live annotation; collapses a visible inline diff, replaces the anchor
range with the suggestion text, marks the conversation applied, and runs the
position resynchronisation pass (`syncCommentPositions`, i.e.
`updateAllCommentRanges`) over the store.  Inserted text carries no marks. -/
def handleAcceptSuggestion (doc : Doc) (comments : Store) (commentIdToAccept : JStr) :
    Doc × Store :=
  match storeGet comments commentIdToAccept with
  | none => (doc, comments)
  | some commentToApply =>
    if commentToApply.aiSuggestion.getD [] = [] then (doc, comments)
    else if commentToApply.status ≠ CommentStatus.suggestion_ready then (doc, comments)
    else
      match findCommentMarkRange doc commentIdToAccept with
      | none => (doc, comments)
      | some currentRange =>
        let suggestionText := commentToApply.aiSuggestion.getD []
        let st :=
          if commentToApply.inlineVisible then
            let bounds := scanDiffAux (runs doc) 0 (currentRange.1, currentRange.2)
            (doc.take bounds.1 ++ doc.drop bounds.2, currentRange.1, currentRange.1)
          else (doc, currentRange.1, currentRange.2)
        let doc2 := st.1.take st.2.1 ++ suggestionText.map (fun ch => (⟨ch, noMarks⟩ : CharM)) ++
          st.1.drop st.2.2
        let comments2 := storeSet comments commentIdToAccept
          { commentToApply with
              status := CommentStatus.applied
              aiSuggestion := none
              inlineVisible := false
              textRange := some (st.2.1, st.2.1 + suggestionText.length)
              selectedText := suggestionText }
        (doc2, updateAllCommentRanges doc2 comments2)

/-- Character-level reading of the findCommentMarkRange accumulator loop:
visit the characters one at a time instead of node by node. -/
def charAux (id : JStr) : Doc → Nat → Option (Nat × Nat) → Option (Nat × Nat)
  | [], _, acc => acc
  | c :: cs, pos, acc =>
    charAux id cs (pos + 1)
      (if c.marks.comment = some id then combineRange acc pos (pos + 1) else acc)

/-- Union of two optional ranges. -/
def mergeOpt : Option (Nat × Nat) → Option (Nat × Nat) → Option (Nat × Nat)
  | none, r => r
  | some p, none => some p
  | some (x, y), some (a, b) => some (min x a, max y b)

theorem combineRange_eq_mergeOpt (acc : Option (Nat × Nat)) (a b : Nat) :
    combineRange acc a b = mergeOpt acc (some (a, b)) := by
  rcases acc with _ | ⟨x, y⟩ <;> rfl

theorem mergeOpt_none_right (p : Option (Nat × Nat)) : mergeOpt p none = p := by
  rcases p with _ | ⟨x, y⟩ <;> rfl

theorem mergeOpt_comm (p q : Option (Nat × Nat)) : mergeOpt p q = mergeOpt q p := by
  rcases p with _ | ⟨x, y⟩ <;> rcases q with _ | ⟨a, b⟩ <;>
    simp [mergeOpt, Nat.min_comm, Nat.max_comm]

theorem mergeOpt_assoc (p q r : Option (Nat × Nat)) :
    mergeOpt (mergeOpt p q) r = mergeOpt p (mergeOpt q r) := by
  rcases p with _ | ⟨x, y⟩ <;> rcases q with _ | ⟨a, b⟩ <;> rcases r with _ | ⟨u, v⟩ <;>
    simp [mergeOpt, Nat.min_assoc, Nat.max_assoc]

theorem mergeOpt_left_comm (p q r : Option (Nat × Nat)) :
    mergeOpt p (mergeOpt q r) = mergeOpt q (mergeOpt p r) := by
  rw [← mergeOpt_assoc, mergeOpt_comm p q, mergeOpt_assoc]

theorem combineRange_merge (acc : Option (Nat × Nat)) (a b c : Nat)
    (hab : a ≤ b) (hbc : b ≤ c) :
    combineRange (combineRange acc a b) b c = combineRange acc a c := by
  rcases acc with _ | ⟨x, y⟩
  · simp only [combineRange]
    rw [Nat.min_eq_left hab, Nat.max_eq_right hbc]
  · simp only [combineRange]
    have h1 : min (min x a) b = min x a := Nat.min_eq_left (le_trans (Nat.min_le_right x a) hab)
    have h2 : max (max y b) c = max y c := by
      rw [Nat.max_assoc, Nat.max_eq_right hbc]
    rw [h1, h2]

theorem runs_ne_nil (c : CharM) (cs : Doc) : runs (c :: cs) ≠ [] := by
  simp only [runs]
  rcases h : runs cs with _ | ⟨⟨t, m⟩, rest⟩
  · simp
  · by_cases hm : c.marks = m
    · simp [hm]
    · simp [hm]

theorem runs_eq_nil (l : Doc) (h : runs l = []) : l = [] := by
  cases l with
  | nil => rfl
  | cons c cs => exact absurd h (runs_ne_nil c cs)

theorem runs_cons_of_nil (c : CharM) (cs : Doc) (h : runs cs = []) :
    runs (c :: cs) = [([c.ch], c.marks)] := by
  simp only [runs, h]

theorem runs_cons_of_cons (c : CharM) (cs : Doc) (t : JStr) (m : MarkSet)
    (rest : List (JStr × MarkSet)) (h : runs cs = (t, m) :: rest) :
    runs (c :: cs) =
      if c.marks = m then ((c.ch :: t), m) :: rest
      else ([c.ch], c.marks) :: (t, m) :: rest := by
  simp only [runs, h]

/-- The node-level findCommentMarkRange loop agrees with the character-level
reading. -/
theorem fcmrAux_runs (id : JStr) :
    ∀ (l : Doc) (pos : Nat) (acc : Option (Nat × Nat)),
      fcmrAux id (runs l) pos acc = charAux id l pos acc := by
  intro l
  induction l with
  | nil => intro pos acc; rfl
  | cons c cs ih =>
    intro pos acc
    rcases hr : runs cs with _ | ⟨⟨t, m⟩, rest⟩
    · have hcs : cs = [] := runs_eq_nil cs hr
      subst hcs
      rw [runs_cons_of_nil c [] hr]
      simp [fcmrAux, charAux]
    · by_cases hm : c.marks = m
      · rw [runs_cons_of_cons c cs t m rest hr, if_pos hm]
        show fcmrAux id rest (pos + (t.length + 1))
            (if m.comment = some id then combineRange acc pos (pos + (t.length + 1)) else acc) =
          charAux id (c :: cs) pos acc
        rw [charAux, ← ih (pos + 1), hr, hm]
        show fcmrAux id rest (pos + (t.length + 1))
            (if m.comment = some id then combineRange acc pos (pos + (t.length + 1)) else acc) =
          fcmrAux id rest (pos + 1 + t.length)
            (if m.comment = some id then
              combineRange (if m.comment = some id then combineRange acc pos (pos + 1) else acc)
                (pos + 1) (pos + 1 + t.length)
            else (if m.comment = some id then combineRange acc pos (pos + 1) else acc))
        have hpos : pos + (t.length + 1) = pos + 1 + t.length := by omega
        rw [hpos]
        by_cases hcm : m.comment = some id
        · rw [if_pos hcm, if_pos hcm, if_pos hcm,
            combineRange_merge acc pos (pos + 1) (pos + 1 + t.length) (by omega) (by omega)]
        · rw [if_neg hcm, if_neg hcm, if_neg hcm]
      · rw [runs_cons_of_cons c cs t m rest hr, if_neg hm]
        show fcmrAux id ((t, m) :: rest) (pos + 1)
            (if c.marks.comment = some id then combineRange acc pos (pos + 1) else acc) =
          charAux id (c :: cs) pos acc
        rw [charAux, ← ih (pos + 1), hr]

/-- findCommentMarkRange read character by character. -/
theorem findCommentMarkRange_eq_charAux (doc : Doc) (id : JStr) :
    findCommentMarkRange doc id = charAux id doc 0 none := by
  rw [findCommentMarkRange, fcmrAux_runs]

theorem charAux_append (id : JStr) :
    ∀ (l₁ l₂ : Doc) (pos : Nat) (acc : Option (Nat × Nat)),
      charAux id (l₁ ++ l₂) pos acc = charAux id l₂ (pos + l₁.length) (charAux id l₁ pos acc) := by
  intro l₁
  induction l₁ with
  | nil => intro l₂ pos acc; simp [charAux]
  | cons c cs ih =>
    intro l₂ pos acc
    simp only [List.cons_append, charAux, List.length_cons, List.append_eq]
    rw [ih]
    have hpos : pos + 1 + cs.length = pos + (cs.length + 1) := by omega
    rw [hpos]

/-- The accumulator of the character scan merges with the scan of the tail
from an empty accumulator. -/
theorem charAux_mergeOpt (id : JStr) :
    ∀ (l : Doc) (pos : Nat) (acc : Option (Nat × Nat)),
      charAux id l pos acc = mergeOpt acc (charAux id l pos none) := by
  intro l
  induction l with
  | nil => intro pos acc; simp [charAux, mergeOpt_none_right]
  | cons c cs ih =>
    intro pos acc
    simp only [charAux]
    by_cases hcm : c.marks.comment = some id
    · rw [if_pos hcm, if_pos hcm]
      rw [ih (pos + 1) (combineRange acc pos (pos + 1)),
        ih (pos + 1) (combineRange none pos (pos + 1))]
      rw [combineRange_eq_mergeOpt, combineRange_eq_mergeOpt]
      rw [mergeOpt_assoc]
      show mergeOpt acc (mergeOpt (some (pos, pos + 1)) (charAux id cs (pos + 1) none)) =
        mergeOpt acc (mergeOpt (mergeOpt none (some (pos, pos + 1))) (charAux id cs (pos + 1) none))
      rfl
    · rw [if_neg hcm, if_neg hcm]
      exact ih (pos + 1) acc

/-- Bounds of the character scan: a nonempty result is a well-formed range
within the scanned region. -/
theorem charAux_none_bounds (id : JStr) :
    ∀ (l : Doc) (pos x y : Nat), charAux id l pos none = some (x, y) →
      pos ≤ x ∧ x < y ∧ y ≤ pos + l.length := by
  intro l
  induction l with
  | nil => intro pos x y h; exact absurd h (by simp [charAux])
  | cons c cs ih =>
    intro pos x y h
    simp only [charAux] at h
    by_cases hcm : c.marks.comment = some id
    · rw [if_pos hcm] at h
      rw [charAux_mergeOpt id cs (pos + 1)] at h
      rcases hX : charAux id cs (pos + 1) none with _ | ⟨a, b⟩
      · rw [hX] at h
        simp only [combineRange, mergeOpt_none_right] at h
        rcases h with ⟨h1, h2⟩
        simp only [List.length_cons]
        omega
      · rw [hX] at h
        have hb := ih (pos + 1) a b hX
        simp only [combineRange, mergeOpt] at h
        rcases h with ⟨h1, h2⟩
        simp only [List.length_cons]
        omega
    · rw [if_neg hcm] at h
      have hb := ih (pos + 1) x y h
      simp only [List.length_cons]
      omega

/-- Scanning a nonempty uniformly marked run widens the accumulator by
exactly the run's interval. -/
theorem charAux_allMarked (id : JStr) :
    ∀ (l : Doc) (pos : Nat) (acc : Option (Nat × Nat)), l ≠ [] →
      (∀ c ∈ l, c.marks.comment = some id) →
      charAux id l pos acc = combineRange acc pos (pos + l.length) := by
  intro l
  induction l with
  | nil => intro pos acc h; exact absurd rfl h
  | cons c cs ih =>
    intro pos acc _ hall
    simp only [charAux, if_pos (hall c (by simp))]
    cases cs with
    | nil => simp [charAux]
    | cons d ds =>
      rw [ih (pos + 1) _ (by simp) (fun x hx => hall x (List.mem_cons_of_mem c hx))]
      rw [combineRange_merge acc pos (pos + 1) (pos + 1 + (d :: ds).length) (by omega) (by omega)]
      have : pos + (c :: d :: ds).length = pos + 1 + (d :: ds).length := by
        simp only [List.length_cons]; omega
      rw [this]

/-- Position i of the document carries the comment mark with this id. -/
def markedAt (doc : Doc) (id : JStr) (i : Nat) : Prop :=
  ∃ c, doc[i]? = some c ∧ c.marks.comment = some id

theorem mergeOpt_absorb (u v : Nat) (B : Option (Nat × Nat))
    (hB : B = none ∨ ∃ x y, B = some (x, y) ∧ u ≤ x ∧ y ≤ v) :
    mergeOpt (some (u, v)) B = some (u, v) := by
  rcases hB with h | ⟨x, y, h, hx, hy⟩
  · rw [h]; rfl
  · rw [h]
    simp [mergeOpt, Nat.min_eq_left hx, Nat.max_eq_left hy]

theorem addCommentMark_getElem (doc : Doc) (id : JStr) (f t : Nat) (hft : f < t)
    (ht : t ≤ doc.length) (i : Nat) :
    (addCommentMark doc id f t)[i]? =
      if f ≤ i ∧ i < t then doc[i]?.map (setCommentOnChar id) else doc[i]? := by
  rw [addCommentMark, if_neg (by omega)]
  have hl1 : (doc.take f).length = f := by rw [List.length_take]; omega
  have hl2 : (((doc.drop f).take (t - f)).map (setCommentOnChar id)).length = t - f := by
    rw [List.length_map, List.length_take, List.length_drop]; omega
  by_cases h1 : i < f
  · rw [if_neg (by omega)]
    rw [List.getElem?_append_left (by rw [List.length_append, hl1, hl2]; omega),
      List.getElem?_append_left (by rw [hl1]; omega), List.getElem?_take, if_pos h1]
  · by_cases h2 : i < t
    · rw [if_pos ⟨by omega, h2⟩]
      rw [List.getElem?_append_left (by rw [List.length_append, hl1, hl2]; omega),
        List.getElem?_append_right (by rw [hl1]; omega), hl1,
        List.getElem?_map, List.getElem?_take, if_pos (by omega), List.getElem?_drop]
      have : f + (i - f) = i := by omega
      rw [this]
    · rw [if_neg (by omega)]
      rw [List.getElem?_append_right (by rw [List.length_append, hl1, hl2]; omega),
        List.length_append, hl1, hl2, List.getElem?_drop]
      have : t + (i - (f + (t - f))) = i := by omega
      rw [this]

theorem addCommentMark_preserves_marked (doc : Doc) (id : JStr) (f t : Nat)
    (hft : f < t) (ht : t ≤ doc.length) (i : Nat) (h : markedAt doc id i) :
    markedAt (addCommentMark doc id f t) id i := by
  obtain ⟨c, hc, hcm⟩ := h
  rw [markedAt, addCommentMark_getElem doc id f t hft ht i]
  by_cases hin : f ≤ i ∧ i < t
  · rw [if_pos hin, hc]
    exact ⟨setCommentOnChar id c, rfl, by simp [setCommentOnChar]⟩
  · rw [if_neg hin]
    exact ⟨c, hc, hcm⟩

theorem charAux_doc_decomp (id : JStr) (doc : Doc) (f t : Nat) (hft : f ≤ t)
    (ht : t ≤ doc.length) :
    charAux id doc 0 none =
      mergeOpt (mergeOpt (charAux id (doc.take f) 0 none)
          (charAux id ((doc.drop f).take (t - f)) f none))
        (charAux id (doc.drop t) t none) := by
  have h3 : (doc.drop f).drop (t - f) = doc.drop t := by
    rw [List.drop_drop]
    congr 1
    omega
  have hdoc : doc = doc.take f ++ ((doc.drop f).take (t - f) ++ doc.drop t) := by
    rw [← h3, List.take_append_drop (t - f) (List.drop f doc), List.take_append_drop f doc]
  have htake_len : (doc.take f).length = f := by rw [List.length_take]; omega
  have hslice_len : ((doc.drop f).take (t - f)).length = t - f := by
    rw [List.length_take, List.length_drop]; omega
  conv_lhs => rw [hdoc]
  rw [charAux_append, htake_len, Nat.zero_add, charAux_append, hslice_len]
  have hft2 : f + (t - f) = t := by omega
  rw [hft2]
  rw [charAux_mergeOpt id ((doc.drop f).take (t - f)) f (charAux id (doc.take f) 0 none)]
  rw [charAux_mergeOpt id (doc.drop t) t]

/-- Applying the comment mark over [f, t) widens the resolved span of the
annotation to the union of the old span and the new range. -/
theorem fcmr_addMark (doc : Doc) (id : JStr) (f t a b : Nat)
    (hf : findCommentMarkRange doc id = some (a, b)) (hft : f < t) (ht : t ≤ doc.length) :
    findCommentMarkRange (addCommentMark doc id f t) id = some (min a f, max b t) := by
  rw [findCommentMarkRange_eq_charAux] at hf ⊢
  have hdecomp := charAux_doc_decomp id doc f t (le_of_lt hft) ht
  rw [hdecomp] at hf
  have htake_len : (doc.take f).length = f := by rw [List.length_take]; omega
  have hslice_len : ((doc.drop f).take (t - f)).length = t - f := by
    rw [List.length_take, List.length_drop]; omega
  have hdoc' : addCommentMark doc id f t =
      doc.take f ++ (((doc.drop f).take (t - f)).map (setCommentOnChar id) ++ doc.drop t) := by
    rw [addCommentMark, if_neg (by omega), List.append_assoc]
  have hmarked : ∀ c ∈ ((doc.drop f).take (t - f)).map (setCommentOnChar id),
      c.marks.comment = some id := by
    intro c hc
    rcases List.mem_map.mp hc with ⟨c', -, rfl⟩
    simp [setCommentOnChar]
  have hslice_ne : ((doc.drop f).take (t - f)).map (setCommentOnChar id) ≠ [] := by
    intro hcon
    have hlen := congrArg List.length hcon
    rw [List.length_map, hslice_len] at hlen
    simp at hlen
    omega
  have hmap_len : (((doc.drop f).take (t - f)).map (setCommentOnChar id)).length = t - f := by
    rw [List.length_map, hslice_len]
  have hdoc'_eval : charAux id (addCommentMark doc id f t) 0 none =
      mergeOpt (mergeOpt (charAux id (doc.take f) 0 none) (some (f, t)))
        (charAux id (doc.drop t) t none) := by
    rw [hdoc', charAux_append, htake_len, Nat.zero_add, charAux_append, hmap_len]
    have hft2 : f + (t - f) = t := by omega
    rw [hft2]
    rw [charAux_allMarked id _ f _ hslice_ne hmarked, hmap_len, hft2]
    rw [charAux_mergeOpt id (doc.drop t) t, combineRange_eq_mergeOpt]
  rw [hdoc'_eval]
  have hBabs : mergeOpt (some (f, t)) (charAux id ((doc.drop f).take (t - f)) f none) =
      some (f, t) := by
    apply mergeOpt_absorb
    rcases hBv : charAux id ((doc.drop f).take (t - f)) f none with _ | ⟨x, y⟩
    · exact Or.inl rfl
    · right
      have hb := charAux_none_bounds id _ f x y hBv
      rw [hslice_len] at hb
      exact ⟨x, y, rfl, by omega, by omega⟩
  calc mergeOpt (mergeOpt (charAux id (doc.take f) 0 none) (some (f, t)))
        (charAux id (doc.drop t) t none)
      = mergeOpt (charAux id (doc.take f) 0 none)
          (mergeOpt (some (f, t)) (charAux id (doc.drop t) t none)) := by
        rw [mergeOpt_assoc]
    _ = mergeOpt (charAux id (doc.take f) 0 none)
          (mergeOpt (mergeOpt (some (f, t)) (charAux id ((doc.drop f).take (t - f)) f none))
            (charAux id (doc.drop t) t none)) := by rw [hBabs]
    _ = mergeOpt (charAux id (doc.take f) 0 none)
          (mergeOpt (some (f, t))
            (mergeOpt (charAux id ((doc.drop f).take (t - f)) f none)
              (charAux id (doc.drop t) t none))) := by rw [mergeOpt_assoc]
    _ = mergeOpt (some (f, t))
          (mergeOpt (charAux id (doc.take f) 0 none)
            (mergeOpt (charAux id ((doc.drop f).take (t - f)) f none)
              (charAux id (doc.drop t) t none))) := by rw [mergeOpt_left_comm]
    _ = mergeOpt (some (f, t))
          (mergeOpt (mergeOpt (charAux id (doc.take f) 0 none)
              (charAux id ((doc.drop f).take (t - f)) f none))
            (charAux id (doc.drop t) t none)) := by rw [mergeOpt_assoc]
    _ = mergeOpt (some (f, t)) (some (a, b)) := by rw [hf]
    _ = some (min f a, max t b) := rfl
    _ = some (min a f, max b t) := by rw [Nat.min_comm, Nat.max_comm]

/-- C10: applying a conversation's annotation to a new range while the
annotation already exists at a different range does not remove the existing
annotation — every annotated position stays annotated and the new range is
additionally annotated — and a subsequent resolve returns the single minimal
span from the earliest annotated position to the end of the latest one,
which covers any unannotated text lying between the two annotated ranges. -/
theorem c10_apply_second_range (doc : Doc) (id : JStr) (fromPos toPos a b : Nat)
    (hf : findCommentMarkRange doc id = some (a, b))
    (hne : (a, b) ≠ (fromPos, toPos))
    (hft : fromPos < toPos) (ht : toPos ≤ doc.length) :
    (∀ i, markedAt doc id i → markedAt (ensureCommentMarkApplied doc id fromPos toPos) id i) ∧
      (∀ i, fromPos ≤ i → i < toPos →
        markedAt (ensureCommentMarkApplied doc id fromPos toPos) id i) ∧
      findCommentMarkRange (ensureCommentMarkApplied doc id fromPos toPos) id =
        some (min a fromPos, max b toPos) ∧
      (∀ j, (b ≤ j ∧ j < fromPos) ∨ (toPos ≤ j ∧ j < a) →
        min a fromPos ≤ j ∧ j < max b toPos) := by
  have hens : ensureCommentMarkApplied doc id fromPos toPos =
      addCommentMark doc id fromPos toPos := by
    rw [ensureCommentMarkApplied, hf]
    show (if (a, b) = (fromPos, toPos) then doc else addCommentMark doc id fromPos toPos) =
      addCommentMark doc id fromPos toPos
    rw [if_neg hne]
  refine ⟨?_, ?_, ?_, ?_⟩
  · intro i h
    rw [hens]
    exact addCommentMark_preserves_marked doc id fromPos toPos hft ht i h
  · intro i h1 h2
    rw [hens, markedAt, addCommentMark_getElem doc id fromPos toPos hft ht i,
      if_pos ⟨h1, h2⟩]
    rcases hx : doc[i]? with _ | c
    · exfalso
      rw [List.getElem?_eq_none_iff] at hx
      omega
    · exact ⟨setCommentOnChar id c, rfl, by simp [setCommentOnChar]⟩
  · rw [hens]
    exact fcmr_addMark doc id fromPos toPos a b hf hft ht
  · intro j hj
    have hbounds := charAux_none_bounds id doc 0 a b
      (by rw [← findCommentMarkRange_eq_charAux]; exact hf)
    rcases hj with ⟨h1, h2⟩ | ⟨h1, h2⟩ <;> constructor <;> omega

/-- A plain document (no marks) holding the given text. -/
def mkPlain (s : JStr) : Doc := s.map (fun ch => (⟨ch, noMarks⟩ : CharM))

/-- A conversation record with the given id, stored range, status and
suggestion, all other fields defaulted. -/
def mkComment (cid : JStr) (range : Option (Nat × Nat)) (status : CommentStatus)
    (sugg : Option JStr) : Comment :=
  ⟨cid, range, [], [], status, sugg, none, 0, none, false, false, [], false, none⟩

/-- Witness for C10: the document "abcdef" annotated for id A on [0, 2),
re-applied at [4, 6). -/
theorem c10_apply_second_range_witness :
    (findCommentMarkRange (addCommentMark (mkPlain ("abcdef".toList)) ("A".toList) 0 2)
          ("A".toList) = some (0, 2) ∧
        ((0, 2) : Nat × Nat) ≠ (4, 6) ∧ 4 < 6 ∧
        6 ≤ (addCommentMark (mkPlain ("abcdef".toList)) ("A".toList) 0 2).length) ∧
      ((∀ i, markedAt (addCommentMark (mkPlain ("abcdef".toList)) ("A".toList) 0 2)
            ("A".toList) i →
          markedAt (ensureCommentMarkApplied
            (addCommentMark (mkPlain ("abcdef".toList)) ("A".toList) 0 2)
            ("A".toList) 4 6) ("A".toList) i) ∧
        (∀ i, 4 ≤ i → i < 6 →
          markedAt (ensureCommentMarkApplied
            (addCommentMark (mkPlain ("abcdef".toList)) ("A".toList) 0 2)
            ("A".toList) 4 6) ("A".toList) i) ∧
        findCommentMarkRange (ensureCommentMarkApplied
            (addCommentMark (mkPlain ("abcdef".toList)) ("A".toList) 0 2)
            ("A".toList) 4 6) ("A".toList) = some (min 0 4, max 2 6) ∧
        (∀ j, (2 ≤ j ∧ j < 4) ∨ (6 ≤ j ∧ j < 0) → min 0 4 ≤ j ∧ j < max 2 6)) :=
  ⟨⟨by decide, by decide, by decide, by decide⟩,
    c10_apply_second_range (addCommentMark (mkPlain ("abcdef".toList)) ("A".toList) 0 2)
      ("A".toList) 4 6 0 2 (by decide) (by decide) (by decide) (by decide)⟩

/-- C9: accepting a suggestion is a complete no-op — document and every
conversation record unchanged, no error set — when the conversation does not
exist, has no aiSuggestion, is not in suggestion_ready, or has no live
annotation anywhere in the document. -/
theorem c9_accept_guard_noop (doc : Doc) (comments : Store) (commentId : JStr)
    (h : storeGet comments commentId = none ∨
      (∃ c, storeGet comments commentId = some c ∧
        (c.aiSuggestion = none ∨ c.status ≠ CommentStatus.suggestion_ready)) ∨
      (∃ c, storeGet comments commentId = some c ∧
        findCommentMarkRange doc commentId = none)) :
    handleAcceptSuggestion doc comments commentId = (doc, comments) := by
  rcases h with h | ⟨c, hc, hcase⟩ | ⟨c, hc, hfr⟩
  · simp only [handleAcceptSuggestion, h]
  · simp only [handleAcceptSuggestion, hc]
    rcases hcase with hsugg | hstat
    · rw [hsugg]
      simp
    · by_cases hsugg : c.aiSuggestion.getD [] = []
      · rw [if_pos hsugg]
      · rw [if_neg hsugg, if_pos hstat]
  · simp only [handleAcceptSuggestion, hc]
    by_cases hsugg : c.aiSuggestion.getD [] = []
    · rw [if_pos hsugg]
    · by_cases hstat : c.status ≠ CommentStatus.suggestion_ready
      · rw [if_neg hsugg, if_pos hstat]
      · rw [if_neg hsugg, if_neg hstat, hfr]

/-- Witness for C9: a pending conversation (not suggestion_ready) with a
suggestion present; accept leaves document and store untouched. -/
theorem c9_accept_guard_noop_witness :
    (storeGet [(("a".toList), mkComment ("a".toList) none CommentStatus.pending
          (some ("x".toList)))] ("a".toList) = none ∨
      (∃ c, storeGet [(("a".toList), mkComment ("a".toList) none CommentStatus.pending
          (some ("x".toList)))] ("a".toList) = some c ∧
        (c.aiSuggestion = none ∨ c.status ≠ CommentStatus.suggestion_ready)) ∨
      (∃ c, storeGet [(("a".toList), mkComment ("a".toList) none CommentStatus.pending
          (some ("x".toList)))] ("a".toList) = some c ∧
        findCommentMarkRange (mkPlain ("hello".toList)) ("a".toList) = none)) ∧
    handleAcceptSuggestion (mkPlain ("hello".toList))
        [(("a".toList), mkComment ("a".toList) none CommentStatus.pending
          (some ("x".toList)))] ("a".toList) =
      (mkPlain ("hello".toList),
        [(("a".toList), mkComment ("a".toList) none CommentStatus.pending
          (some ("x".toList)))]) :=
  ⟨Or.inr (Or.inl ⟨mkComment ("a".toList) none CommentStatus.pending (some ("x".toList)),
      by decide, Or.inr (by decide)⟩),
    c9_accept_guard_noop (mkPlain ("hello".toList))
      [(("a".toList), mkComment ("a".toList) none CommentStatus.pending (some ("x".toList)))]
      ("a".toList)
      (Or.inr (Or.inl ⟨mkComment ("a".toList) none CommentStatus.pending (some ("x".toList)),
        by decide, Or.inr (by decide)⟩))⟩
/-- Some character of the document carries the comment mark with this id. -/
def markedIn (doc : Doc) (id : JStr) : Prop :=
  ∃ c ∈ doc, c.marks.comment = some id

theorem marksInDocAux_cons_none (t : JStr) (m : MarkSet) (rest : List (JStr × MarkSet))
    (acc : List JStr) (hm : m.comment = none) :
    marksInDocAux ((t, m) :: rest) acc = marksInDocAux rest acc := by
  simp only [marksInDocAux, hm]

theorem marksInDocAux_cons_some (t : JStr) (m : MarkSet) (rest : List (JStr × MarkSet))
    (acc : List JStr) (j : JStr) (hm : m.comment = some j) :
    marksInDocAux ((t, m) :: rest) acc =
      marksInDocAux rest (if j ∈ acc then acc else acc ++ [j]) := by
  simp only [marksInDocAux, hm]

theorem marksInDocAux_mem (id : JStr) :
    ∀ (rs : List (JStr × MarkSet)) (acc : List JStr),
      id ∈ marksInDocAux rs acc ↔ id ∈ acc ∨ ∃ tm ∈ rs, tm.2.comment = some id := by
  intro rs
  induction rs with
  | nil =>
    intro acc
    constructor
    · intro h
      exact Or.inl h
    · rintro (h | ⟨tm, htm, -⟩)
      · exact h
      · exact absurd htm (List.not_mem_nil tm)
  | cons tm rest ih =>
    intro acc
    obtain ⟨t, m⟩ := tm
    rcases hm : m.comment with _ | j
    · rw [marksInDocAux_cons_none t m rest acc hm, ih]
      constructor
      · rintro (h | ⟨x, hx, hxc⟩)
        · exact Or.inl h
        · exact Or.inr ⟨x, List.mem_cons_of_mem _ hx, hxc⟩
      · rintro (h | ⟨x, hx, hxc⟩)
        · exact Or.inl h
        · rcases List.mem_cons.mp hx with heq | hx
          · subst heq
            rw [hm] at hxc
            simp at hxc
          · exact Or.inr ⟨x, hx, hxc⟩
    · rw [marksInDocAux_cons_some t m rest acc j hm]
      by_cases hj : j ∈ acc
      · rw [if_pos hj, ih]
        constructor
        · rintro (h | ⟨x, hx, hxc⟩)
          · exact Or.inl h
          · exact Or.inr ⟨x, List.mem_cons_of_mem _ hx, hxc⟩
        · rintro (h | ⟨x, hx, hxc⟩)
          · exact Or.inl h
          · rcases List.mem_cons.mp hx with heq | hx
            · subst heq
              rw [hm] at hxc
              have h2 : id = j := by simpa using hxc.symm
              exact Or.inl (h2 ▸ hj)
            · exact Or.inr ⟨x, hx, hxc⟩
      · rw [if_neg hj, ih]
        constructor
        · rintro (h | ⟨x, hx, hxc⟩)
          · rcases List.mem_append.mp h with h | h
            · exact Or.inl h
            · refine Or.inr ⟨(t, m), by simp, ?_⟩
              rw [hm]
              simpa using (List.mem_singleton.mp h).symm
          · exact Or.inr ⟨x, List.mem_cons_of_mem _ hx, hxc⟩
        · rintro (h | ⟨x, hx, hxc⟩)
          · exact Or.inl (List.mem_append.mpr (Or.inl h))
          · rcases List.mem_cons.mp hx with heq | hx
            · subst heq
              rw [hm] at hxc
              have h2 : j = id := by simpa using hxc
              exact Or.inl (List.mem_append.mpr (Or.inr (by simp [h2])))
            · exact Or.inr ⟨x, hx, hxc⟩

theorem runs_marks_exists (d : Doc) (id : JStr) :
    (∃ tm ∈ runs d, tm.2.comment = some id) ↔ markedIn d id := by
  induction d with
  | nil =>
    constructor
    · rintro ⟨tm, htm, -⟩
      exact absurd htm (List.not_mem_nil tm)
    · rintro ⟨c, hc, -⟩
      exact absurd hc (List.not_mem_nil c)
  | cons c cs ih =>
    rcases hr : runs cs with _ | ⟨⟨t, m⟩, rest⟩
    · have hcs : cs = [] := runs_eq_nil cs hr
      subst hcs
      rw [runs_cons_of_nil c [] hr]
      constructor
      · rintro ⟨tm, htm, htmc⟩
        have heq := List.mem_singleton.mp htm
        subst heq
        exact ⟨c, List.mem_cons_self c [], htmc⟩
      · rintro ⟨x, hx, hxc⟩
        have heq := List.mem_singleton.mp hx
        subst heq
        exact ⟨([x.ch], x.marks), List.mem_cons_self _ [], hxc⟩
    · by_cases hm : c.marks = m
      · rw [runs_cons_of_cons c cs t m rest hr, if_pos hm]
        constructor
        · rintro ⟨tm, htm, htmc⟩
          rcases List.mem_cons.mp htm with heq | htm
          · subst heq
            exact ⟨c, by simp, by rw [hm]; exact htmc⟩
          · obtain ⟨x, hx, hxc⟩ := ih.mp ⟨tm, by rw [hr]; exact List.mem_cons_of_mem _ htm, htmc⟩
            exact ⟨x, List.mem_cons_of_mem c hx, hxc⟩
        · rintro ⟨x, hx, hxc⟩
          rcases List.mem_cons.mp hx with heq | hx
          · subst heq
            exact ⟨((x.ch :: t), m), List.mem_cons_self _ _, by rw [← hm]; exact hxc⟩
          · obtain ⟨tm, htm, htmc⟩ := ih.mpr ⟨x, hx, hxc⟩
            rw [hr] at htm
            rcases List.mem_cons.mp htm with heq | htm
            · subst heq
              exact ⟨((c.ch :: t), m), List.mem_cons_self _ _, htmc⟩
            · exact ⟨tm, List.mem_cons_of_mem _ htm, htmc⟩
      · rw [runs_cons_of_cons c cs t m rest hr, if_neg hm]
        constructor
        · rintro ⟨tm, htm, htmc⟩
          rcases List.mem_cons.mp htm with heq | htm
          · subst heq
            exact ⟨c, by simp, htmc⟩
          · obtain ⟨x, hx, hxc⟩ := ih.mp ⟨tm, by rw [hr]; exact htm, htmc⟩
            exact ⟨x, List.mem_cons_of_mem c hx, hxc⟩
        · rintro ⟨x, hx, hxc⟩
          rcases List.mem_cons.mp hx with heq | hx
          · subst heq
            exact ⟨([x.ch], x.marks), by simp, hxc⟩
          · obtain ⟨tm, htm, htmc⟩ := ih.mpr ⟨x, hx, hxc⟩
            rw [hr] at htm
            exact ⟨tm, List.mem_cons_of_mem _ htm, htmc⟩

/-- Membership characterisation of the marksInDocument snapshot. -/
theorem marksInDocument_mem (doc : Doc) (id : JStr) :
    id ∈ marksInDocument doc ↔ markedIn doc id := by
  rw [marksInDocument, marksInDocAux_mem]
  simp only [List.not_mem_nil, false_or]
  exact runs_marks_exists doc id

theorem clear_markedIn (doc : Doc) (id j : JStr) :
    markedIn (doc.map (clearCommentOnChar id)) j ↔ markedIn doc j ∧ j ≠ id := by
  constructor
  · rintro ⟨c', hc', hj⟩
    rcases List.mem_map.mp hc' with ⟨c, hc, rfl⟩
    by_cases hcm : c.marks.comment = some id
    · rw [clearCommentOnChar, if_pos hcm] at hj
      simp at hj
    · rw [clearCommentOnChar, if_neg hcm] at hj
      refine ⟨⟨c, hc, hj⟩, ?_⟩
      intro hji
      rw [hji] at hj
      exact hcm hj
  · rintro ⟨⟨c, hc, hj⟩, hne⟩
    refine ⟨clearCommentOnChar id c, List.mem_map.mpr ⟨c, hc, rfl⟩, ?_⟩
    have hcm : ¬ c.marks.comment = some id := by
      rw [hj]
      simpa using hne
    rw [clearCommentOnChar, if_neg hcm]
    exact hj

theorem addCommentMark_markedIn (doc : Doc) (id : JStr) (f t : Nat) (j : JStr)
    (h : markedIn (addCommentMark doc id f t) j) : markedIn doc j ∨ j = id := by
  rw [addCommentMark] at h
  by_cases hft : t ≤ f
  · rw [if_pos hft] at h
    exact Or.inl h
  · rw [if_neg hft] at h
    obtain ⟨c, hc, hj⟩ := h
    rcases List.mem_append.mp hc with hc | hc
    · rcases List.mem_append.mp hc with hc | hc
      · exact Or.inl ⟨c, List.take_subset f doc hc, hj⟩
      · rcases List.mem_map.mp hc with ⟨c', -, rfl⟩
        right
        rw [setCommentOnChar] at hj
        simpa using hj.symm
    · exact Or.inl ⟨c, List.drop_subset t doc hc, hj⟩

theorem ensure_eq_of_find (doc : Doc) (id : JStr) (f t : Nat) (r : Nat × Nat)
    (h : findCommentMarkRange doc id = some r) :
    ensureCommentMarkApplied doc id f t =
      if r = (f, t) then doc else addCommentMark doc id f t := by
  simp only [ensureCommentMarkApplied, h]

theorem ensure_markedIn (doc : Doc) (id : JStr) (f t : Nat) (j : JStr)
    (h : markedIn (ensureCommentMarkApplied doc id f t) j) : markedIn doc j ∨ j = id := by
  rcases hfr : findCommentMarkRange doc id with _ | r
  · rw [ensureCommentMarkApplied, hfr] at h
    exact addCommentMark_markedIn doc id f t j h
  · rw [ensure_eq_of_find doc id f t r hfr] at h
    by_cases hr : r = (f, t)
    · rw [if_pos hr] at h
      exact Or.inl h
    · rw [if_neg hr] at h
      exact addCommentMark_markedIn doc id f t j h

theorem storeGet_ne_none_of_mem (store : Store) (kv : JStr × Comment) (h : kv ∈ store) :
    storeGet store kv.1 ≠ none := by
  intro hnone
  rw [storeGet] at hnone
  rcases hfind : store.find? (fun p => decide (p.1 = kv.1)) with _ | p
  · have h2 := List.find?_eq_none.mp hfind kv h
    simp at h2
  · rw [hfind] at hnone
    simp at hnone

theorem orphanStep_removes (comments : Store) (st : Doc × List JStr) (mid : JStr)
    (h : storeGet comments mid = none) :
    orphanStep comments st mid = (st.1.map (clearCommentOnChar mid), st.2 ++ [mid]) := by
  simp only [orphanStep, removeCommentMark, if_pos h]

theorem orphanStep_keeps (comments : Store) (st : Doc × List JStr) (mid : JStr)
    (h : ¬ storeGet comments mid = none) :
    orphanStep comments st mid = st := by
  simp only [orphanStep, if_neg h]

theorem orphanFold_marked (comments : Store) :
    ∀ (pres : List JStr) (doc : Doc) (orph : List JStr),
      (∀ j, markedIn doc j → storeGet comments j ≠ none ∨ j ∈ pres) →
      ∀ j, markedIn (pres.foldl (orphanStep comments) (doc, orph)).1 j →
        storeGet comments j ≠ none := by
  intro pres
  induction pres with
  | nil =>
    intro doc orph hinv j hj
    rcases hinv j hj with h | h
    · exact h
    · simp at h
  | cons mid rest ih =>
    intro doc orph hinv j hj
    rw [List.foldl_cons] at hj
    by_cases hmid : storeGet comments mid = none
    · rw [orphanStep_removes comments (doc, orph) mid hmid] at hj
      refine ih _ _ ?_ j hj
      intro j' hj'
      rw [clear_markedIn] at hj'
      rcases hinv j' hj'.1 with h | h
      · exact Or.inl h
      · rcases List.mem_cons.mp h with heq | h
        · exact absurd heq hj'.2
        · exact Or.inr h
    · rw [orphanStep_keeps comments (doc, orph) mid hmid] at hj
      refine ih _ _ ?_ j hj
      intro j' hj'
      rcases hinv j' hj' with h | h
      · exact Or.inl h
      · rcases List.mem_cons.mp h with heq | h
        · exact Or.inl (heq ▸ hmid)
        · exact Or.inr h

theorem missingStep_no_range (present : List JStr) (st : Doc × List JStr × List JStr)
    (kv : JStr × Comment) (h : kv.2.textRange = none) :
    missingStep present st kv = st := by
  simp only [missingStep, h]

theorem missingStep_range (present : List JStr) (st : Doc × List JStr × List JStr)
    (kv : JStr × Comment) (r : Nat × Nat) (h : kv.2.textRange = some r) :
    missingStep present st kv =
      if kv.1 ∈ present then st
      else
        if r.1 ≤ r.2 ∧ r.2 ≤ st.1.length then
          (ensureCommentMarkApplied st.1 kv.1 r.1 r.2, st.2.1 ++ [kv.1], st.2.2 ++ [kv.1])
        else (st.1, st.2.1 ++ [kv.1], st.2.2) := by
  simp only [missingStep, h]

theorem missingFold_marked (present : List JStr) :
    ∀ (kvs : List (JStr × Comment)) (doc : Doc) (mi fx : List JStr) (j : JStr),
      markedIn (kvs.foldl (missingStep present) (doc, mi, fx)).1 j →
      markedIn doc j ∨ ∃ kv ∈ kvs, kv.1 = j := by
  intro kvs
  induction kvs with
  | nil => intro doc mi fx j hj; exact Or.inl hj
  | cons kv rest ih =>
    intro doc mi fx j hj
    rw [List.foldl_cons] at hj
    rcases htr : kv.2.textRange with _ | r
    · rw [missingStep_no_range present (doc, mi, fx) kv htr] at hj
      rcases ih _ _ _ j hj with h | ⟨kv', hkv', hk⟩
      · exact Or.inl h
      · exact Or.inr ⟨kv', List.mem_cons_of_mem _ hkv', hk⟩
    · rw [missingStep_range present (doc, mi, fx) kv r htr] at hj
      by_cases hp : kv.1 ∈ present
      · rw [if_pos hp] at hj
        rcases ih _ _ _ j hj with h | ⟨kv', hkv', hk⟩
        · exact Or.inl h
        · exact Or.inr ⟨kv', List.mem_cons_of_mem _ hkv', hk⟩
      · rw [if_neg hp] at hj
        by_cases hb : r.1 ≤ r.2 ∧ r.2 ≤ ((doc, mi, fx) : Doc × List JStr × List JStr).1.length
        · rw [if_pos hb] at hj
          rcases ih _ _ _ j hj with h | ⟨kv', hkv', hk⟩
          · rcases ensure_markedIn doc kv.1 r.1 r.2 j h with h | heq
            · exact Or.inl h
            · exact Or.inr ⟨kv, by simp, heq.symm⟩
          · exact Or.inr ⟨kv', List.mem_cons_of_mem _ hkv', hk⟩
        · rw [if_neg hb] at hj
          rcases ih _ _ _ j hj with h | ⟨kv', hkv', hk⟩
          · exact Or.inl h
          · exact Or.inr ⟨kv', List.mem_cons_of_mem _ hkv', hk⟩

/-- After one validate pass, every annotated id in the document has a store
entry. -/
theorem validate_marks_in_store (doc : Doc) (comments : Store) (j : JStr)
    (h : markedIn (validateAndFixCommentMarks doc comments).1 j) :
    storeGet comments j ≠ none := by
  have h2 : (validateAndFixCommentMarks doc comments).1 =
      (comments.foldl (missingStep (marksInDocument doc))
        (((marksInDocument doc).foldl (orphanStep comments) (doc, [])).1, [], [])).1 :=
    rfl
  rw [h2] at h
  rcases missingFold_marked (marksInDocument doc) comments _ [] [] j h with h | ⟨kv, hkv, hk⟩
  · refine orphanFold_marked comments (marksInDocument doc) doc [] ?_ j ?_
    · intro j' hj'
      exact Or.inr ((marksInDocument_mem doc j').mpr hj')
    · exact h
  · rw [← hk]
    exact storeGet_ne_none_of_mem comments kv hkv

theorem orphanFold_no_push (comments : Store) :
    ∀ (l : List JStr) (doc : Doc) (orph : List JStr),
      (∀ x ∈ l, storeGet comments x ≠ none) →
      (l.foldl (orphanStep comments) (doc, orph)).2 = orph := by
  intro l
  induction l with
  | nil => intro doc orph _; rfl
  | cons mid rest ih =>
    intro doc orph hl
    rw [List.foldl_cons, orphanStep_keeps comments (doc, orph) mid (hl mid (by simp))]
    exact ih doc orph (fun x hx => hl x (List.mem_cons_of_mem _ hx))

/-- C8 (amended): calling validate twice in a row with no intervening
document mutation produces an empty orphanedAnchors list on the second call;
the missingAnchors list, however, need not be empty on the second call (a
conversation whose stored range cannot be re-applied stays missing), so the
claim as stated — both lists empty — fails. -/
theorem c8_second_validate_no_orphans (doc : Doc) (comments : Store) :
    ((validateAndFixCommentMarks
        (validateAndFixCommentMarks doc comments).1 comments).2).orphanedMarks = [] := by
  have h2 : ((validateAndFixCommentMarks
      (validateAndFixCommentMarks doc comments).1 comments).2).orphanedMarks =
      ((marksInDocument (validateAndFixCommentMarks doc comments).1).foldl
        (orphanStep comments) ((validateAndFixCommentMarks doc comments).1, [])).2 :=
    rfl
  rw [h2]
  refine orphanFold_no_push comments _ _ [] ?_
  intro x hx
  exact validate_marks_in_store doc comments x
    ((marksInDocument_mem (validateAndFixCommentMarks doc comments).1 x).mp hx)

/-- Counterexample to C8 as stated: with the plain document "abc" and a
single conversation whose stored range (0, 5) lies outside the document
bounds, the second validate call still reports that conversation in
missingAnchors, so the second-call report is not empty. -/
theorem c8_counterexample :
    ((validateAndFixCommentMarks
        (validateAndFixCommentMarks (mkPlain ("abc".toList))
          [(("A".toList), mkComment ("A".toList) (some (0, 5)) CommentStatus.pending none)]).1
        [(("A".toList), mkComment ("A".toList) (some (0, 5)) CommentStatus.pending none)]).2).missingMarks ≠ [] := by
  decide

/-! ### JSON values and the structured parse

The reconciler hands the extracted text to the JavaScript builtin
`JSON.parse`.  The builtin is external to the repository, so it is modelled
here by an executable recogniser of the ECMAScript JSON grammar: values are
null, booleans, numbers (kept as their lexeme, since the reconciler never
reads a numeric value), strings (with the standard escapes), arrays and
objects.  JSON whitespace is space, tab, line feed and carriage return. -/

def quoteC : Char := Char.ofNat 34

def backslashC : Char := Char.ofNat 92

def braceL : Char := Char.ofNat 123

def braceR : Char := Char.ofNat 125

def brackL : Char := Char.ofNat 91

def brackR : Char := Char.ofNat 93

/-- A parsed JSON value. -/
inductive JVal where
  | jnull
  | jbool (b : Bool)
  | jnum (lexeme : JStr)
  | jstr (s : JStr)
  | jarr (items : List JVal)
  | jobj (fields : List (JStr × JVal))

/-- Skip the JSON whitespace characters. -/
def skipWsJ (s : JStr) : JStr :=
  s.dropWhile (fun c => c = ' ' || c = Char.ofNat 9 || c = Char.ofNat 10 || c = Char.ofNat 13)

/-- Value of one hexadecimal digit. -/
def hexVal (c : Char) : Option Nat :=
  if c.isDigit then some (c.toNat - 48)
  else if 'a' ≤ c ∧ c ≤ 'f' then some (c.toNat - 87)
  else if 'A' ≤ c ∧ c ≤ 'F' then some (c.toNat - 55)
  else none

/-- The single-character string escapes of JSON. -/
def escSimple (c : Char) : Option Char :=
  if c = quoteC then some quoteC
  else if c = backslashC then some backslashC
  else if c = '/' then some '/'
  else if c = 'b' then some (Char.ofNat 8)
  else if c = 'f' then some (Char.ofNat 12)
  else if c = 'n' then some (Char.ofNat 10)
  else if c = 'r' then some (Char.ofNat 13)
  else if c = 't' then some (Char.ofNat 9)
  else none

/-- Body of a JSON string literal, after the opening quote: the decoded
characters and the remaining input after the closing quote.  Fuel-driven so
that the definition is structural; a fuel of the input length suffices. -/
def parseStrBody : Nat → JStr → Option (JStr × JStr)
  | 0, _ => none
  | _ + 1, [] => none
  | fuel + 1, c :: rest =>
    if c = quoteC then some ([], rest)
    else if c = backslashC then
      match rest with
      | [] => none
      | e :: rest2 =>
        if e = 'u' then
          match rest2 with
          | h1 :: h2 :: h3 :: h4 :: rest3 =>
            match hexVal h1, hexVal h2, hexVal h3, hexVal h4 with
            | some a, some b, some c4, some d =>
              (parseStrBody fuel rest3).map
                (fun p => (Char.ofNat (a * 4096 + b * 256 + c4 * 16 + d) :: p.1, p.2))
            | _, _, _, _ => none
          | _ => none
        else
          match escSimple e with
          | some d => (parseStrBody fuel rest2).map (fun p => (d :: p.1, p.2))
          | none => none
    else (parseStrBody fuel rest).map (fun p => (c :: p.1, p.2))

/-- Optional fraction part of a JSON number. -/
def parseFrac : JStr → Option (JStr × JStr)
  | c :: r =>
    if c = '.' then
      let ds := r.takeWhile Char.isDigit
      if ds = [] then none else some ('.' :: ds, r.dropWhile Char.isDigit)
    else some ([], c :: r)
  | [] => some ([], [])

/-- Optional exponent part of a JSON number. -/
def parseExp : JStr → Option (JStr × JStr)
  | c :: r =>
    if c = 'e' ∨ c = 'E' then
      let sr :=
        match r with
        | s2 :: r2 => if s2 = '+' ∨ s2 = '-' then ([s2], r2) else (([] : JStr), r)
        | [] => (([] : JStr), ([] : JStr))
      let ds := sr.2.takeWhile Char.isDigit
      if ds = [] then none else some (c :: sr.1 ++ ds, sr.2.dropWhile Char.isDigit)
    else some ([], c :: r)
  | [] => some ([], [])

/-- A JSON number starting at the head of the input: its lexeme and the
rest.  Leading zeros are rejected, as `JSON.parse` rejects them. -/
def parseNum (s : JStr) : Option (JStr × JStr) :=
  let sr :=
    match s with
    | c :: r => if c = '-' then (([c] : JStr), r) else (([] : JStr), s)
    | [] => (([] : JStr), s)
  let ds := sr.2.takeWhile Char.isDigit
  if ds = [] then none
  else if ds.length > 1 ∧ ds.head? = some '0' then none
  else
    let r1 := sr.2.dropWhile Char.isDigit
    match parseFrac r1 with
    | none => none
    | some fr =>
      match parseExp fr.2 with
      | none => none
      | some er => some (sr.1 ++ ds ++ fr.1 ++ er.1, er.2)

/-- Strip an expected literal from the head of the input. -/
def stripLit (lit : JStr) (s : JStr) : Option JStr :=
  if s.take lit.length = lit then some (s.drop lit.length) else none

/-- Comma-separated array items up to the closing bracket.  The element
parser is passed in, so the recursion stays structural on this loop's own
fuel. -/
def sepArrF (pv : JStr → Option (JVal × JStr)) : Nat → JStr → Option (List JVal × JStr)
  | 0, _ => none
  | fuel + 1, s =>
    match pv s with
    | none => none
    | some vr =>
      match skipWsJ vr.2 with
      | c :: r2 =>
        if c = ',' then
          match sepArrF pv fuel r2 with
          | some vsr => some (vr.1 :: vsr.1, vsr.2)
          | none => none
        else if c = brackR then some ([vr.1], r2)
        else none
      | [] => none

/-- Comma-separated object members up to the closing brace. -/
def sepObjF (pv : JStr → Option (JVal × JStr)) : Nat → JStr → Option (List (JStr × JVal) × JStr)
  | 0, _ => none
  | fuel + 1, s =>
    match skipWsJ s with
    | c :: r =>
      if c = quoteC then
        match parseStrBody (r.length + 1) r with
        | some kr =>
          match skipWsJ kr.2 with
          | c3 :: r3 =>
            if c3 = ':' then
              match pv r3 with
              | some vr =>
                match skipWsJ vr.2 with
                | c5 :: r5 =>
                  if c5 = ',' then
                    match sepObjF pv fuel r5 with
                    | some mr => some ((kr.1, vr.1) :: mr.1, mr.2)
                    | none => none
                  else if c5 = braceR then some ([(kr.1, vr.1)], r5)
                  else none
                | [] => none
              | none => none
            else none
          | [] => none
        | none => none
      else none
    | [] => none

/-- One JSON value plus the remaining input.  The fuel bounds the nesting
depth; one unit is consumed per bracket level, so the input length plus one
always suffices. -/
def parseValF : Nat → JStr → Option (JVal × JStr)
  | 0, _ => none
  | fuel + 1, s0 =>
    match skipWsJ s0 with
    | [] => none
    | c :: rest =>
      if c = quoteC then
        match parseStrBody (rest.length + 1) rest with
        | some sr => some (JVal.jstr sr.1, sr.2)
        | none => none
      else if c = braceL then
        match skipWsJ rest with
        | c2 :: r2 =>
          if c2 = braceR then some (JVal.jobj [], r2)
          else
            match sepObjF (parseValF fuel) (rest.length + 1) rest with
            | some mr => some (JVal.jobj mr.1, mr.2)
            | none => none
        | [] => none
      else if c = brackL then
        match skipWsJ rest with
        | c2 :: r2 =>
          if c2 = brackR then some (JVal.jarr [], r2)
          else
            match sepArrF (parseValF fuel) (rest.length + 1) rest with
            | some vsr => some (JVal.jarr vsr.1, vsr.2)
            | none => none
        | [] => none
      else if c = 't' then (stripLit ("true".toList) (c :: rest)).map (fun r => (JVal.jbool true, r))
      else if c = 'f' then (stripLit ("false".toList) (c :: rest)).map (fun r => (JVal.jbool false, r))
      else if c = 'n' then (stripLit ("null".toList) (c :: rest)).map (fun r => (JVal.jnull, r))
      else
        match parseNum (c :: rest) with
        | some lr => some (JVal.jnum lr.1, lr.2)
        | none => none

/-- Model of the `JSON.parse` builtin on the extracted text: one JSON value
covering the whole input (up to surrounding whitespace), or a parse
failure. -/
def parseJson (s : JStr) : Option JVal :=
  match parseValF (s.length + 1) s with
  | some vr => if skipWsJ vr.2 = [] then some vr.1 else none
  | none => none

example : parseJson ("null".toList) = some JVal.jnull := rfl
example : parseJson ("  \x7b \x7d ".toList) = some (JVal.jobj []) := rfl
example : parseJson ("oops".toList) = none := rfl
example : parseJson ("\x7b\"a\":[1,\"x\"]\x7d".toList) =
    some (JVal.jobj [(("a".toList), JVal.jarr [JVal.jnum ("1".toList), JVal.jstr ("x".toList)])]) := rfl
example : parseJson ("\x7b\"suggestions\":[]\x7d Hope this helps!".toList) = none := rfl
/-! ### Extracting the JSON text from the raw response -/

/-- The opening token of a fenced JSON block. -/
def fenceOpenTok : JStr := "```json".toList

/-- The closing token of a fenced block. -/
def fenceCloseTok : JStr := "```".toList

/-- First match of the fence pattern `new RegExp('```json\\s*([\\s\\S]*?)\\s*```')`
against the raw text: the text between the first ```json and the first
following ```, with leading and trailing whitespace outside the capture
group (equivalently, trimmed; the code trims the captured group once more,
which is then a no-op). -/
def fenceMatch (raw : JStr) : Option JStr :=
  match jsIndexOf raw fenceOpenTok with
  | none => none
  | some i =>
    match jsIndexOf (raw.drop (i + fenceOpenTok.length)) fenceCloseTok with
    | none => none
    | some j => some (jsTrim ((raw.drop (i + fenceOpenTok.length)).take j))

/-- The cleaned JSON string of the current TextEditorView.tsx revision: the
fenced block when the capture group is truthy (non-empty), else the whole
raw text trimmed. -/
def extractJsonCurrent (raw : JStr) : JStr :=
  match fenceMatch raw with
  | some m => if m = [] then jsTrim raw else m
  | none => jsTrim raw

/-- Brace-depth scan of the legacy revision: walking the text from the
first brace, count +1 on every opening and -1 on every closing brace; the
index one past the closing brace that returns the count to zero, if any. -/
def braceScanAux : JStr → Int → Nat → Option Nat
  | [], _, _ => none
  | c :: rest, count, i =>
    if c = braceL then braceScanAux rest (count + 1) (i + 1)
    else if c = braceR then
      if count - 1 = 0 then some (i + 1) else braceScanAux rest (count - 1) (i + 1)
    else braceScanAux rest count (i + 1)

/-- Unfenced path of the legacy (part_007) extractor: trim; when the
trimmed text does not already start with an opening brace or bracket, look
for the first opening brace and cut out the first balanced-by-count brace
group; if there is no brace, or the scan never returns to depth zero, keep
the trimmed text as is. -/
def legacyNoFence (raw : JStr) : JStr :=
  let t := jsTrim raw
  if t.head? = some braceL ∨ t.head? = some brackL then t
  else
    match jsIndexOf t [braceL] with
    | none => t
    | some i =>
      match braceScanAux (t.drop i) 0 0 with
      | some e => (t.drop i).take e
      | none => t

/-- The cleaned JSON string of the legacy (part_007) revision of
handleAIBatchResponse: the fenced block when the capture group is truthy,
else the unfenced path with its conditional brace scan. -/
def extractJsonLegacy (raw : JStr) : JStr :=
  match fenceMatch raw with
  | some m => if m = [] then legacyNoFence raw else m
  | none => legacyNoFence raw

example : extractJsonCurrent ("```json\n\x7b\x7d\n```".toList) = "\x7b\x7d".toList := rfl
example : extractJsonCurrent ("  \x7b\"a\":1\x7d  ".toList) = "\x7b\"a\":1\x7d".toList := rfl
example : extractJsonLegacy ("Here you go: \x7b\"a\":1\x7d done".toList) = "\x7b\"a\":1\x7d".toList := rfl
example : extractJsonLegacy ("\x7b\"a\":1\x7d done".toList) = "\x7b\"a\":1\x7d done".toList := rfl
/-! ### The batch-response reconciler (handleAIBatchResponse) -/

/-- The metadata carried on an incoming message: the fields
handleAIBatchResponse reads (`metadata?.requestType`, `metadata?.commentId`). -/
structure MsgMetadata where
  requestType : Option JStr
  commentId : Option JStr
deriving DecidableEq

/-- Field lookup on a parsed JSON value: undefined (none) on non-objects
and absent keys; on duplicate keys the last one wins, as in `JSON.parse`. -/
def jlook (v : JVal) (k : JStr) : Option JVal :=
  match v with
  | JVal.jobj fields => (fields.reverse.find? (fun p => decide (p.1 = k))).map Prod.snd
  | _ => none

/-- A field read as a string: none when absent or not a string. -/
def asStr : Option JVal → Option JStr
  | some (JVal.jstr s) => some s
  | _ => none

/-- JS truthiness of an optional string: present and non-empty. -/
def strTruthy : Option JStr → Bool
  | some s => !s.isEmpty
  | none => false

/-- JS `a || b` on an optional string with a string default. -/
def jsOr (o : Option JStr) (d : JStr) : JStr :=
  match o with
  | some s => if s = [] then d else s
  | none => d

/-- The destructured fields of one element of the suggestions array.  The
promptId is used as an object key, so an absent or non-string promptId is
read as the string an undefined key coerces to. -/
structure SuggestionItem where
  promptId : JStr
  originalText : Option JStr
  revisedText : Option JStr
  explanation : Option JStr
  statusJ : Option JStr
  errMsgJ : Option JStr
deriving DecidableEq

/-- Destructuring `const { promptId, originalText, revisedText, explanation,
status, errorMessage } = suggestion`. -/
def decodeSuggestion (v : JVal) : SuggestionItem :=
  ⟨(asStr (jlook v ("promptId".toList))).getD ("undefined".toList),
   asStr (jlook v ("originalText".toList)),
   asStr (jlook v ("revisedText".toList)),
   asStr (jlook v ("explanation".toList)),
   asStr (jlook v ("status".toList)),
   asStr (jlook v ("errorMessage".toList))⟩

/-- The suggestions array of the parsed response:
`Array.isArray(parsedResponse.suggestions)`; none when the parsed value is
falsy, not an object, or its suggestions field is not an array. -/
def getSuggestions (v : JVal) : Option (List JVal) :=
  match jlook v ("suggestions".toList) with
  | some (JVal.jarr items) => some items
  | _ => none

/-- The parse-failure message set on every processing conversation in the
catch branch. -/
def parseFailMsg (raw : JStr) : JStr :=
  ("AI response JSON parsing failed. Raw: ".toList) ++ raw.take 150 ++ ("...".toList)

/-- The format-error message set on every processing conversation when the
parsed response is falsy or has no suggestions array. -/
def formatErrMsg (raw : JStr) : JStr :=
  ("AI response format error or no suggestions. Raw: ".toList) ++ raw.take 100 ++ ("...".toList)

/-- Mark every processing conversation as an error with this message,
leaving every other conversation untouched (the two error branches of the
structured parse). -/
def errAll (comments : Store) (msg : JStr) : Store :=
  comments.map (fun kv =>
    if kv.2.status = CommentStatus.processing then
      (kv.1, { kv.2 with status := CommentStatus.error, errorMessage := some msg })
    else kv)

/-- One iteration of `parsedResponse.suggestions.forEach`: the four-way
branch on whether the promptId matches a stored conversation and its state.
The model assumes a live (non-destroyed) editor, as the reconciler runs with
one. -/
def applySuggestionStep (now : Nat) (doc : Doc) (comments : Store) (sv : JVal) : Doc × Store :=
  let s := decodeSuggestion sv
  match storeGet comments s.promptId with
  | some c =>
    if c.status = CommentStatus.processing then
      if s.statusJ = some ("success".toList) then
        (doc, storeSet comments s.promptId
          { c with status := CommentStatus.suggestion_ready,
                   aiSuggestion := some (jsOr s.revisedText ("No revision suggested.".toList)),
                   explanation := s.explanation,
                   errorMessage := none })
      else
        (doc, storeSet comments s.promptId
          { c with status := CommentStatus.error,
                   errorMessage := some (jsOr s.errMsgJ ("AI processing failed.".toList)) })
    else (doc, comments)
  | none =>
    if strTruthy s.originalText && strTruthy s.revisedText then
      match findTextRangeInPM doc (s.originalText.getD []) with
      | some r =>
        (ensureCommentMarkApplied doc s.promptId r.1 r.2,
         storeSet comments s.promptId
           ⟨s.promptId, some r, s.originalText.getD [],
            jsOr s.explanation ("AI Suggested Revision".toList),
            (if s.statusJ = some ("success".toList) then CommentStatus.suggestion_ready
             else CommentStatus.error),
            s.revisedText, s.explanation, now,
            (if s.statusJ = some ("error".toList) then
              some (jsOr s.errMsgJ ("Error in AI suggestion".toList))
             else none),
            false, true, [], false, some now⟩)
      | none => (doc, comments)
    else (doc, comments)

/-- Whether this suggestion element strictly matches a commentId
(`s.promptId === commentId` in the sweep). -/
def sweepMatchB (sv : JVal) (cid : JStr) : Bool :=
  decide (asStr (jlook sv ("promptId".toList)) = some cid)

/-- The deferred sweep on one conversation: a conversation still in
processing that no element of the suggestions array names transitions to
error with the fixed no-response message. -/
def sweepFn (svs : List JVal) (cid : JStr) (c : Comment) : Comment :=
  if c.status = CommentStatus.processing ∧ ¬ svs.any (fun sv => sweepMatchB sv cid) then
    { c with status := CommentStatus.error,
             errorMessage := some
               (("Item not present in AI's current suggestions list (no response for this promptId).").toList) }
  else c

/-- The deferred `setTimeout` sweep over the whole store. -/
def sweepC (svs : List JVal) (comments : Store) : Store :=
  comments.map (fun kv => (kv.1, sweepFn svs kv.1 kv.2))

/-- Whether the raw text looks like JSON (used for the conversational
fallback detection). -/
def looksLikeJSONB (raw : JStr) : Bool :=
  decide ((jsTrim raw).head? = some braceL) || decide ((jsTrim raw).head? = some brackL) ||
    (jsIndexOf raw fenceOpenTok).isSome

/-- Backup detection for a conversational (thread-reply) response when the
metadata got lost. -/
def isLikelyConversationalB (raw : JStr) : Bool :=
  !looksLikeJSONB raw && decide (raw.length > 50) &&
    !(jsIndexOf raw ("\"suggestions\"".toList)).isSome &&
    !(jsIndexOf raw ("\"promptId\"".toList)).isSome

/-- Whether the response is routed to the thread-reply path instead of the
batch JSON path. -/
def isThreadReplyB (metadata : Option MsgMetadata) : Bool :=
  match metadata with
  | some m => decide (m.requestType = some ("thread_reply".toList))
  | none => false

/-- The routing condition
`isThreadReply || (isLikelyConversational && !metadata)`. -/
def isThreadRoute (raw : JStr) (metadata : Option MsgMetadata) : Bool :=
  isThreadReplyB metadata || (isLikelyConversationalB raw && metadata.isNone)

/-- A user reply that was pending becomes sent when the AI reply lands. -/
def replyMarkSent (r : Reply) : Reply :=
  if r.status = some ReplyStatus.pending then { r with status := some ReplyStatus.sent } else r

/-- JS `reduce((latest, current) => currentActivity > latestActivity ?
current : latest)` over lastActivity (absent read as epoch 0). -/
def mostRecentBy (l : List Comment) (c0 : Comment) : Comment :=
  l.foldl (fun latest current =>
    if latest.lastActivity.getD 0 < current.lastActivity.getD 0 then current else latest) c0

/-- The commentId a thread reply is delivered to: the metadata's commentId
when truthy, else (for a conversational response) the single conversation
with a pending reply, the most recently active of several, the most recently
active conversation with any replies, or the only conversation; otherwise
the original (falsy) value. -/
def threadCommentId (metadata : Option MsgMetadata) (raw : JStr) (comments : Store) :
    Option JStr :=
  let cid0 := metadata.bind MsgMetadata.commentId
  if strTruthy cid0 || !isLikelyConversationalB raw then cid0
  else
    match comments.filter
        (fun kv => kv.2.replies.any (fun r => decide (r.status = some ReplyStatus.pending))) with
    | [kv] => some kv.2.id
    | kv :: kv2 :: rest => some (mostRecentBy ((kv2 :: rest).map Prod.snd) kv.2).id
    | [] =>
      match comments.filter (fun kv => decide (kv.2.replies.length > 0)) with
      | kv :: rest => some (mostRecentBy (rest.map Prod.snd) kv.2).id
      | [] =>
        match comments with
        | [kv] => some kv.2.id
        | _ => cid0

/-- The thread-reply path: deliver the raw text as an assistant reply to the
resolved conversation, marking that conversation's pending user replies as
sent; with no (truthy) target or empty text, change nothing. -/
def threadReplyApply (raw : JStr) (metadata : Option MsgMetadata) (freshId : JStr)
    (now : Nat) (comments : Store) : Store :=
  match threadCommentId metadata raw comments with
  | some cid =>
    if cid ≠ [] ∧ raw ≠ [] then
      match storeGet comments cid with
      | some c =>
        storeSet comments cid
          { c with
              replies := c.replies.map replyMarkSent ++
                [⟨freshId, ReplyRole.assistant, raw, now, none, none⟩],
              lastActivity := some now }
      | none => comments
    else comments
  | none => comments

/-- The batch (non-thread) body of handleAIBatchResponse: empty raw text or
a falsy/suggestion-less parse hits the format-error branch, a parse failure
hits the catch branch, and a well-formed response is folded suggestion by
suggestion and then swept. -/
def handleBatchCore (raw : JStr) (now : Nat) (doc : Doc) (comments : Store) : Doc × Store :=
  if raw = [] then (doc, errAll comments (formatErrMsg raw))
  else
    match parseJson (extractJsonCurrent raw) with
    | none => (doc, errAll comments (parseFailMsg raw))
    | some v =>
      match getSuggestions v with
      | none => (doc, errAll comments (formatErrMsg raw))
      | some svs =>
        let st := svs.foldl (fun p sv => applySuggestionStep now p.1 p.2 sv) (doc, comments)
        (st.1, sweepC svs st.2)

/-- Model of `handleAIBatchResponse` from TextEditorView.tsx: route thread
replies (or conversational fallbacks without metadata) to the reply path,
everything else to the structured batch path.  The raw text is the joined
text content of the message; freshId models generateSimpleUUID and now the
clock. -/
def handleAIBatchResponse (raw : JStr) (metadata : Option MsgMetadata) (freshId : JStr)
    (now : Nat) (doc : Doc) (comments : Store) : Doc × Store :=
  if isThreadRoute raw metadata then
    (doc, threadReplyApply raw metadata freshId now comments)
  else handleBatchCore raw now doc comments
theorem storeGet_cons (kv : JStr × Comment) (rest : Store) (k : JStr) :
    storeGet (kv :: rest) k = if kv.1 = k then some kv.2 else storeGet rest k := by
  by_cases h : kv.1 = k
  · rw [if_pos h, storeGet, List.find?_cons_of_pos _ (by simpa using h)]
    rfl
  · rw [if_neg h, storeGet, List.find?_cons_of_neg _ (by simpa using h)]
    rfl

theorem storeGet_map_replace (k2 : JStr) (v : Comment) (k : JStr) (hne : k ≠ k2) :
    ∀ s : Store,
      storeGet (s.map (fun kv => if kv.1 = k2 then (k2, v) else kv)) k = storeGet s k := by
  intro s
  induction s with
  | nil => rfl
  | cons kv rest ih =>
    rw [List.map_cons, storeGet_cons, storeGet_cons]
    by_cases hk : kv.1 = k2
    · rw [if_pos hk]
      rw [if_neg (show ¬ ((k2, v) : JStr × Comment).1 = k from fun h => hne h.symm),
          if_neg (fun h => hne (hk ▸ h.symm : k = k2).symm.symm)]
      exact ih
    · rw [if_neg hk]
      by_cases hkk : kv.1 = k
      · rw [if_pos hkk, if_pos hkk]
      · rw [if_neg hkk, if_neg hkk]
        exact ih

theorem storeGet_append_one (kv2 : JStr × Comment) (k : JStr) (hne : k ≠ kv2.1) :
    ∀ s : Store, storeGet (s ++ [kv2]) k = storeGet s k := by
  intro s
  induction s with
  | nil =>
    rw [List.nil_append, storeGet_cons, if_neg (fun h => hne h.symm)]
  | cons kv rest ih =>
    rw [List.cons_append, storeGet_cons, storeGet_cons]
    by_cases hk : kv.1 = k
    · rw [if_pos hk, if_pos hk]
    · rw [if_neg hk, if_neg hk]
      exact ih

theorem storeGet_storeSet_ne (s : Store) (k2 : JStr) (v : Comment) (k : JStr) (hne : k ≠ k2) :
    storeGet (storeSet s k2 v) k = storeGet s k := by
  rw [storeSet]
  by_cases hany : s.any (fun kv => decide (kv.1 = k2)) = true
  · rw [if_pos hany]
    exact storeGet_map_replace k2 v k hne s
  · rw [if_neg hany]
    exact storeGet_append_one (k2, v) k hne s

theorem errAll_get (msg : JStr) (k : JStr) :
    ∀ s : Store, storeGet (errAll s msg) k =
      (storeGet s k).map (fun c =>
        if c.status = CommentStatus.processing then
          { c with status := CommentStatus.error, errorMessage := some msg }
        else c) := by
  intro s
  induction s with
  | nil => rfl
  | cons kv rest ih =>
    have hmap : errAll (kv :: rest) msg =
        (if kv.2.status = CommentStatus.processing then
          (kv.1, { kv.2 with status := CommentStatus.error, errorMessage := some msg })
         else kv) :: errAll rest msg := by
      simp only [errAll, List.map_cons]
    rw [hmap, storeGet_cons, storeGet_cons]
    by_cases hs : kv.2.status = CommentStatus.processing
    · rw [if_pos hs]
      by_cases hk : kv.1 = k
      · rw [if_pos hk, if_pos hk]
        simp [hs]
      · rw [if_neg hk, if_neg hk]
        exact ih
    · rw [if_neg hs]
      by_cases hk : kv.1 = k
      · rw [if_pos hk, if_pos hk]
        simp [hs]
      · rw [if_neg hk, if_neg hk]
        exact ih

theorem errAll_preserve (s : Store) (msg : JStr) (k : JStr) (c : Comment)
    (hget : storeGet s k = some c) (hst : c.status ≠ CommentStatus.processing) :
    storeGet (errAll s msg) k = some c := by
  rw [errAll_get, hget]
  simp [hst]

theorem applyStep_preserve (now : Nat) (doc : Doc) (comments : Store) (sv : JVal)
    (k : JStr) (c : Comment) (hget : storeGet comments k = some c)
    (hst : c.status ≠ CommentStatus.processing) :
    storeGet (applySuggestionStep now doc comments sv).2 k = some c := by
  by_cases hk : (decodeSuggestion sv).promptId = k
  · have hg2 : storeGet comments (decodeSuggestion sv).promptId = some c := by
      rw [hk]; exact hget
    simp only [applySuggestionStep, hg2, if_neg hst]
    exact hget
  · have hne : k ≠ (decodeSuggestion sv).promptId := fun h => hk h.symm
    rcases hg : storeGet comments (decodeSuggestion sv).promptId with _ | c2
    · simp only [applySuggestionStep, hg]
      by_cases htr :
          (strTruthy (decodeSuggestion sv).originalText &&
            strTruthy (decodeSuggestion sv).revisedText) = true
      · rw [if_pos htr]
        rcases hftr :
            findTextRangeInPM doc ((decodeSuggestion sv).originalText.getD []) with _ | r
        · simp only [hftr]
          exact hget
        · simp only [hftr]
          rw [storeGet_storeSet_ne _ _ _ _ hne]
          exact hget
      · rw [if_neg htr]
        exact hget
    · simp only [applySuggestionStep, hg]
      by_cases hp : c2.status = CommentStatus.processing
      · rw [if_pos hp]
        by_cases hsucc : (decodeSuggestion sv).statusJ = some ("success".toList)
        · rw [if_pos hsucc]
          rw [storeGet_storeSet_ne _ _ _ _ hne]
          exact hget
        · rw [if_neg hsucc]
          rw [storeGet_storeSet_ne _ _ _ _ hne]
          exact hget
      · rw [if_neg hp]
        exact hget

theorem foldSteps_preserve (now : Nat) (k : JStr) (c : Comment) :
    ∀ (svs : List JVal) (doc : Doc) (comments : Store),
      storeGet comments k = some c → c.status ≠ CommentStatus.processing →
      storeGet
        ((svs.foldl (fun p sv => applySuggestionStep now p.1 p.2 sv) (doc, comments)).2) k =
        some c := by
  intro svs
  induction svs with
  | nil => intro doc comments hget _; exact hget
  | cons sv rest ih =>
    intro doc comments hget hst
    rw [List.foldl_cons]
    exact ih (applySuggestionStep now doc comments sv).1
      (applySuggestionStep now doc comments sv).2
      (applyStep_preserve now doc comments sv k c hget hst) hst

theorem sweepC_get (svs : List JVal) (k : JStr) :
    ∀ s : Store, storeGet (sweepC svs s) k = (storeGet s k).map (sweepFn svs k) := by
  intro s
  induction s with
  | nil => rfl
  | cons kv rest ih =>
    have hmap : sweepC svs (kv :: rest) = (kv.1, sweepFn svs kv.1 kv.2) :: sweepC svs rest := by
      simp only [sweepC, List.map_cons]
    rw [hmap, storeGet_cons, storeGet_cons]
    by_cases hk : kv.1 = k
    · subst hk
      rw [if_pos rfl, if_pos rfl]
      rfl
    · rw [if_neg hk, if_neg hk]
      exact ih

theorem sweepFn_not_processing (svs : List JVal) (k : JStr) (c : Comment)
    (hst : c.status ≠ CommentStatus.processing) : sweepFn svs k c = c := by
  rw [sweepFn, if_neg (fun h => hst h.1)]

theorem sweepC_preserve (svs : List JVal) (s : Store) (k : JStr) (c : Comment)
    (hget : storeGet s k = some c) (hst : c.status ≠ CommentStatus.processing) :
    storeGet (sweepC svs s) k = some c := by
  rw [sweepC_get, hget, Option.map_some', sweepFn_not_processing svs k c hst]

theorem handleBatchCore_preserve (raw : JStr) (now : Nat) (doc : Doc) (comments : Store)
    (k : JStr) (c : Comment) (hget : storeGet comments k = some c)
    (hst : c.status ≠ CommentStatus.processing) :
    storeGet (handleBatchCore raw now doc comments).2 k = some c := by
  by_cases hraw : raw = []
  · simp only [handleBatchCore, if_pos hraw]
    exact errAll_preserve comments _ k c hget hst
  · simp only [handleBatchCore, if_neg hraw]
    rcases hp : parseJson (extractJsonCurrent raw) with _ | v
    · simp only [hp]
      exact errAll_preserve comments _ k c hget hst
    · simp only [hp]
      rcases hsug : getSuggestions v with _ | svs
      · simp only [hsug]
        exact errAll_preserve comments _ k c hget hst
      · simp only [hsug]
        exact sweepC_preserve svs _ k c (foldSteps_preserve now k c svs doc comments hget hst) hst

theorem isThreadRoute_eq_false (raw : JStr) (m : MsgMetadata)
    (hreq : m.requestType ≠ some ("thread_reply".toList)) :
    isThreadRoute raw (some m) = false := by
  simp only [isThreadRoute, isThreadReplyB, Option.isNone_some, Bool.and_false, Bool.or_false,
    decide_eq_false_iff_not]
  exact hreq

/-- C1: a batch response routed to the structured path (real metadata, not a
thread reply) can transition only conversations whose status is processing:
whatever the raw text parses to, a stored conversation in any other status
(pending, suggestion_ready, applied or error) is left exactly as it was, in
every branch — parse failure, format failure, the per-suggestion
reconciliation and the deferred sweep. -/
theorem c1_only_processing_transitioned (raw : JStr) (metadata : Option MsgMetadata)
    (freshId : JStr) (now : Nat) (doc : Doc) (comments : Store) (m : MsgMetadata)
    (cid : JStr) (c : Comment)
    (hmeta : metadata = some m)
    (hreq : m.requestType ≠ some ("thread_reply".toList))
    (hget : storeGet comments cid = some c)
    (hst : c.status ≠ CommentStatus.processing) :
    storeGet (handleAIBatchResponse raw metadata freshId now doc comments).2 cid = some c := by
  subst hmeta
  simp only [handleAIBatchResponse, isThreadRoute_eq_false raw m hreq, Bool.false_eq_true,
    if_false]
  exact handleBatchCore_preserve raw now doc comments cid c hget hst

/-- Witness for C1: a well-formed response naming promptId "a" while the
stored conversation "a" is already applied; the reconciler leaves it
untouched. -/
theorem c1_only_processing_transitioned_witness :
    (some (⟨some ("collab_batch".toList), none⟩ : MsgMetadata) =
        some (⟨some ("collab_batch".toList), none⟩ : MsgMetadata)) ∧
    ((⟨some ("collab_batch".toList), none⟩ : MsgMetadata).requestType ≠
        some ("thread_reply".toList)) ∧
    (storeGet [(("a".toList), mkComment ("a".toList) none CommentStatus.applied none)]
        ("a".toList) = some (mkComment ("a".toList) none CommentStatus.applied none)) ∧
    ((mkComment ("a".toList) none CommentStatus.applied none).status ≠
        CommentStatus.processing) ∧
    storeGet
      (handleAIBatchResponse
        ("\x7b\"suggestions\":[\x7b\"promptId\":\"a\",\"status\":\"success\"\x7d]\x7d".toList)
        (some ⟨some ("collab_batch".toList), none⟩) ("u1".toList) 7 []
        [(("a".toList), mkComment ("a".toList) none CommentStatus.applied none)]).2
      ("a".toList) =
      some (mkComment ("a".toList) none CommentStatus.applied none) :=
  ⟨rfl, by decide, by decide, by decide,
    c1_only_processing_transitioned _ _ _ _ _ _ _ _ _ rfl (by decide) (by decide) (by decide)⟩
/-- C7: when the structured parse of a batch response fails (real metadata,
not a thread reply, and the extracted text is not valid JSON), the document
is untouched and every stored conversation in processing transitions to
error with a message containing a truncated prefix of the raw text, while a
conversation in any other status keeps its record exactly. -/
theorem c7_parse_failure_errors (raw : JStr) (metadata : Option MsgMetadata)
    (freshId : JStr) (now : Nat) (doc : Doc) (comments : Store) (m : MsgMetadata)
    (hmeta : metadata = some m)
    (hreq : m.requestType ≠ some ("thread_reply".toList))
    (hparse : parseJson (extractJsonCurrent raw) = none) :
    ∃ msg pre mid, msg = pre ++ raw.take 100 ++ mid ∧
      (handleAIBatchResponse raw metadata freshId now doc comments).1 = doc ∧
      ∀ k c, storeGet comments k = some c →
        storeGet (handleAIBatchResponse raw metadata freshId now doc comments).2 k =
          some (if c.status = CommentStatus.processing then
                  { c with status := CommentStatus.error, errorMessage := some msg }
                else c) := by
  subst hmeta
  have hroute : handleAIBatchResponse raw (some m) freshId now doc comments =
      handleBatchCore raw now doc comments := by
    simp only [handleAIBatchResponse, isThreadRoute_eq_false raw m hreq, Bool.false_eq_true,
      if_false]
  rw [hroute]
  by_cases hraw : raw = []
  · refine ⟨formatErrMsg raw, ("AI response format error or no suggestions. Raw: ".toList),
      ("...".toList), rfl, ?_, ?_⟩
    · simp only [handleBatchCore, if_pos hraw]
    · intro k c hget
      simp only [handleBatchCore, if_pos hraw]
      rw [errAll_get, hget, Option.map_some']
  · refine ⟨parseFailMsg raw, ("AI response JSON parsing failed. Raw: ".toList),
      ((raw.drop 100).take 50 ++ ("...".toList)), ?_, ?_, ?_⟩
    · show ("AI response JSON parsing failed. Raw: ".toList) ++ raw.take 150 ++ ("...".toList) =
        ("AI response JSON parsing failed. Raw: ".toList) ++ raw.take 100 ++
          ((raw.drop 100).take 50 ++ ("...".toList))
      rw [show (150 : Nat) = 100 + 50 from rfl, List.take_add]
      simp [List.append_assoc]
    · simp only [handleBatchCore, if_neg hraw, hparse]
    · intro k c hget
      simp only [handleBatchCore, if_neg hraw, hparse]
      rw [errAll_get, hget, Option.map_some']

/-- Witness for C7: the unparseable response "oops" against a store holding
one processing conversation. -/
theorem c7_parse_failure_errors_witness :
    ((⟨some ("collab_batch".toList), none⟩ : MsgMetadata).requestType ≠
        some ("thread_reply".toList)) ∧
    (parseJson (extractJsonCurrent ("oops".toList)) = none) ∧
    (∃ msg pre mid, msg = pre ++ ("oops".toList).take 100 ++ mid ∧
      (handleAIBatchResponse ("oops".toList) (some ⟨some ("collab_batch".toList), none⟩)
        ("u1".toList) 5 []
        [(("p".toList), mkComment ("p".toList) none CommentStatus.processing none)]).1 = [] ∧
      ∀ k c,
        storeGet [(("p".toList), mkComment ("p".toList) none CommentStatus.processing none)] k =
          some c →
        storeGet (handleAIBatchResponse ("oops".toList)
            (some ⟨some ("collab_batch".toList), none⟩) ("u1".toList) 5 []
            [(("p".toList), mkComment ("p".toList) none CommentStatus.processing none)]).2 k =
          some (if c.status = CommentStatus.processing then
                  { c with status := CommentStatus.error, errorMessage := some msg }
                else c)) :=
  ⟨by decide, rfl,
    c7_parse_failure_errors _ _ _ _ _ _ _ rfl (by decide) rfl⟩
theorem jsIndexOf_spec (needle : JStr) :
    ∀ (hay : JStr) (i : Nat), jsIndexOf hay needle = some i →
      i + needle.length ≤ hay.length ∧ (hay.drop i).take needle.length = needle := by
  intro hay
  induction hay with
  | nil =>
    intro i h
    rw [jsIndexOf] at h
    by_cases ht : ([] : JStr).take needle.length = needle
    · rw [if_pos ht] at h
      have hi : i = 0 := by
        injection h with h2
        exact h2.symm
      subst hi
      have hn : needle = [] := by simpa using ht.symm
      subst hn
      exact ⟨by simp, by simp⟩
    · rw [if_neg ht] at h
      cases h
  | cons c rest ih =>
    intro i h
    rw [jsIndexOf] at h
    by_cases ht : (c :: rest).take needle.length = needle
    · rw [if_pos ht] at h
      have hi : i = 0 := by
        injection h with h2
        exact h2.symm
      subst hi
      have hlen := congrArg List.length ht
      rw [List.length_take] at hlen
      exact ⟨by omega, by simpa using ht⟩
    · rw [if_neg ht] at h
      rcases hj : jsIndexOf rest needle with _ | j
      · rw [hj] at h
        cases h
      · rw [hj] at h
        have hi : i = j + 1 := by
          injection h with h2
          exact h2.symm
        subst hi
        obtain ⟨h1, h2⟩ := ih j hj
        refine ⟨by simp [List.length_cons]; omega, ?_⟩
        simpa using h2

/-- Reassemble a document from its node list. -/
def joinRuns (rs : List (JStr × MarkSet)) : Doc :=
  (rs.map (fun tm => tm.1.map (fun ch => (⟨ch, tm.2⟩ : CharM)))).flatten

theorem joinRuns_runs : ∀ d : Doc, joinRuns (runs d) = d := by
  intro d
  induction d with
  | nil => rfl
  | cons c cs ih =>
    rcases hr : runs cs with _ | ⟨⟨t, m⟩, rest⟩
    · have hcs : cs = [] := runs_eq_nil cs hr
      subst hcs
      rw [runs_cons_of_nil c [] hr]
      rfl
    · rw [hr] at ih
      by_cases hm : c.marks = m
      · rw [runs_cons_of_cons c cs t m rest hr, if_pos hm]
        have h2 : joinRuns ((c.ch :: t, m) :: rest) =
            (⟨c.ch, m⟩ : CharM) :: joinRuns ((t, m) :: rest) := rfl
        rw [h2, ih, ← hm]
      · rw [runs_cons_of_cons c cs t m rest hr, if_neg hm]
        have h2 : joinRuns (([c.ch], c.marks) :: (t, m) :: rest) =
            (⟨c.ch, c.marks⟩ : CharM) :: joinRuns ((t, m) :: rest) := rfl
        rw [h2, ih]

theorem ftrAux_correct (s : JStr) :
    ∀ (rs : List (JStr × MarkSet)) (pos f t : Nat),
      ftrAux s rs pos = some (f, t) →
      pos ≤ f ∧ t = f + s.length ∧ t ≤ pos + (joinRuns rs).length ∧
      (((joinRuns rs).drop (f - pos)).take s.length).map CharM.ch = s := by
  intro rs
  induction rs with
  | nil =>
    intro pos f t h
    cases h
  | cons tm rest ih =>
    intro pos f t h
    obtain ⟨t0, m⟩ := tm
    rw [ftrAux] at h
    have hdec : joinRuns ((t0, m) :: rest) =
        t0.map (fun ch => (⟨ch, m⟩ : CharM)) ++ joinRuns rest := rfl
    have hlen : (joinRuns ((t0, m) :: rest)).length = t0.length + (joinRuns rest).length := by
      rw [hdec, List.length_append, List.length_map]
    rcases hj : jsIndexOf t0 s with _ | idx
    · rw [hj] at h
      obtain ⟨h1, h2, h3, h4⟩ := ih (pos + t0.length) f t h
      refine ⟨by omega, h2, by omega, ?_⟩
      rw [hdec, List.drop_append_eq_append_drop,
        List.drop_eq_nil_of_le (by rw [List.length_map]; omega), List.nil_append,
        List.length_map]
      have harith : f - pos - t0.length = f - (pos + t0.length) := by omega
      rw [harith]
      exact h4
    · rw [hj] at h
      obtain ⟨hle, hsub⟩ := jsIndexOf_spec s t0 idx hj
      have hf : f = pos + idx ∧ t = pos + idx + s.length := by
        injection h with h2
        exact ⟨congrArg Prod.fst h2.symm, congrArg Prod.snd h2.symm⟩
      obtain ⟨hf1, hf2⟩ := hf
      subst hf1
      subst hf2
      refine ⟨Nat.le_add_right pos idx, rfl, by omega, ?_⟩
      have harith : pos + idx - pos = idx := by omega
      have e1 : (joinRuns ((t0, m) :: rest)).drop idx =
          (t0.drop idx).map (fun ch => (⟨ch, m⟩ : CharM)) ++
            (joinRuns rest).drop (idx - t0.length) := by
        rw [hdec, List.drop_append_eq_append_drop, ← List.map_drop, List.length_map]
      have hz : s.length - ((t0.drop idx).map (fun ch => (⟨ch, m⟩ : CharM))).length = 0 := by
        rw [List.length_map, List.length_drop]
        omega
      rw [harith, e1, List.take_append_eq_append_take, hz, List.take_zero, List.append_nil,
        ← List.map_take, hsub, List.map_map]
      exact List.map_id' s
theorem findTextRangeInPM_correct (doc : Doc) (s : JStr) (f t : Nat)
    (h : findTextRangeInPM doc s = some (f, t)) :
    t = f + s.length ∧ t ≤ doc.length ∧ textBetween doc f t = s := by
  rw [findTextRangeInPM] at h
  by_cases hs : s = []
  · rw [if_pos hs] at h
    cases h
  · rw [if_neg hs] at h
    obtain ⟨h1, h2, h3, h4⟩ := ftrAux_correct s (runs doc) 0 f t h
    rw [joinRuns_runs] at h3 h4
    refine ⟨h2, by omega, ?_⟩
    rw [textBetween]
    have e1 : t - f = s.length := by omega
    have e2 : f - 0 = f := by omega
    rw [e1]
    rw [e2] at h4
    exact h4

theorem strTruthy_getD (o : Option JStr) (h : strTruthy o = true) : o.getD [] ≠ [] := by
  cases o with
  | none => simp [strTruthy] at h
  | some s =>
    simp only [strTruthy, Bool.not_eq_true'] at h
    simpa [List.isEmpty_eq_false] using h

theorem applyStep_new_located (now : Nat) (doc : Doc) (comments : Store) (sv : JVal)
    (f t : Nat)
    (hnone : storeGet comments (decodeSuggestion sv).promptId = none)
    (htr : (strTruthy (decodeSuggestion sv).originalText &&
        strTruthy (decodeSuggestion sv).revisedText) = true)
    (hftr : findTextRangeInPM doc ((decodeSuggestion sv).originalText.getD []) = some (f, t)) :
    applySuggestionStep now doc comments sv =
      (ensureCommentMarkApplied doc (decodeSuggestion sv).promptId f t,
       storeSet comments (decodeSuggestion sv).promptId
         ⟨(decodeSuggestion sv).promptId, some (f, t),
          (decodeSuggestion sv).originalText.getD [],
          jsOr (decodeSuggestion sv).explanation ("AI Suggested Revision".toList),
          (if (decodeSuggestion sv).statusJ = some ("success".toList) then
            CommentStatus.suggestion_ready
           else CommentStatus.error),
          (decodeSuggestion sv).revisedText, (decodeSuggestion sv).explanation, now,
          (if (decodeSuggestion sv).statusJ = some ("error".toList) then
            some (jsOr (decodeSuggestion sv).errMsgJ ("Error in AI suggestion".toList))
           else none),
          false, true, [], false, some now⟩) := by
  simp only [applySuggestionStep, hnone, htr, hftr]
  rw [if_pos trivial]

theorem applyStep_new_not_located (now : Nat) (doc : Doc) (comments : Store) (sv : JVal)
    (hnone : storeGet comments (decodeSuggestion sv).promptId = none)
    (hftr : findTextRangeInPM doc ((decodeSuggestion sv).originalText.getD []) = none) :
    applySuggestionStep now doc comments sv = (doc, comments) := by
  simp only [applySuggestionStep, hnone]
  by_cases htr : (strTruthy (decodeSuggestion sv).originalText &&
      strTruthy (decodeSuggestion sv).revisedText) = true
  · simp only [htr, hftr, if_true]
  · simp only [Bool.not_eq_true] at htr
    simp only [htr, Bool.false_eq_true, if_false]

/-- C2: a success suggestion whose promptId matches no stored conversation
and that carries truthy originalText and revisedText: when originalText is
located in the live document, the reconciliation step synthesizes a new
conversation under that promptId, anchored at the located range (whose text
is originalText), directly in suggestion_ready, and tags the live document
with the conversation's annotation over that range; when originalText
cannot be located, the step changes neither the document nor the store. -/
theorem c2_synthesize_new_conversation (now : Nat) (doc : Doc) (comments : Store) (sv : JVal)
    (hnone : storeGet comments (decodeSuggestion sv).promptId = none)
    (hot : strTruthy (decodeSuggestion sv).originalText = true)
    (hrv : strTruthy (decodeSuggestion sv).revisedText = true)
    (hsucc : (decodeSuggestion sv).statusJ = some ("success".toList)) :
    (∀ f t, findTextRangeInPM doc ((decodeSuggestion sv).originalText.getD []) = some (f, t) →
      applySuggestionStep now doc comments sv =
        (ensureCommentMarkApplied doc (decodeSuggestion sv).promptId f t,
         storeSet comments (decodeSuggestion sv).promptId
           ⟨(decodeSuggestion sv).promptId, some (f, t),
            (decodeSuggestion sv).originalText.getD [],
            jsOr (decodeSuggestion sv).explanation ("AI Suggested Revision".toList),
            CommentStatus.suggestion_ready,
            (decodeSuggestion sv).revisedText, (decodeSuggestion sv).explanation, now,
            none, false, true, [], false, some now⟩) ∧
      textBetween doc f t = (decodeSuggestion sv).originalText.getD [] ∧
      t = f + ((decodeSuggestion sv).originalText.getD []).length ∧ t ≤ doc.length ∧
      (findCommentMarkRange doc (decodeSuggestion sv).promptId = none →
        ∀ i, f ≤ i → i < t →
          markedAt (ensureCommentMarkApplied doc (decodeSuggestion sv).promptId f t)
            (decodeSuggestion sv).promptId i)) ∧
    (findTextRangeInPM doc ((decodeSuggestion sv).originalText.getD []) = none →
      applySuggestionStep now doc comments sv = (doc, comments)) := by
  constructor
  · intro f t hftr
    have htr : (strTruthy (decodeSuggestion sv).originalText &&
        strTruthy (decodeSuggestion sv).revisedText) = true := by
      simp [hot, hrv]
    have herr : ¬ (decodeSuggestion sv).statusJ = some ("error".toList) := by
      rw [hsucc]
      decide
    have heq := applyStep_new_located now doc comments sv f t hnone htr hftr
    rw [if_pos hsucc, if_neg herr] at heq
    obtain ⟨h2, h3, h4⟩ := findTextRangeInPM_correct doc _ f t hftr
    refine ⟨heq, h4, h2, h3, ?_⟩
    intro hfcn i hfi hit
    have hne := strTruthy_getD _ hot
    have hlen0 : ((decodeSuggestion sv).originalText.getD []).length ≠ 0 := by
      intro hh
      exact hne (List.length_eq_zero.mp hh)
    have hft : f < t := by omega
    rw [ensureCommentMarkApplied, hfcn]
    have hidoc : i < doc.length := by omega
    refine ⟨setCommentOnChar (decodeSuggestion sv).promptId doc[i], ?_, ?_⟩
    · rw [addCommentMark_getElem doc _ f t hft h3 i, if_pos ⟨hfi, hit⟩,
        List.getElem?_eq_getElem hidoc]
      rfl
    · simp [setCommentOnChar]
  · intro hftr
    exact applyStep_new_not_located now doc comments sv hnone hftr

/-- Witness for C2: the suggestion (promptId "p1", originalText "bc",
revisedText "XY", status "success") against the plain document "abcd" and
an empty store. -/
theorem c2_synthesize_new_conversation_witness :
    (storeGet [] (decodeSuggestion (JVal.jobj
        [(("promptId".toList), JVal.jstr ("p1".toList)),
         (("originalText".toList), JVal.jstr ("bc".toList)),
         (("revisedText".toList), JVal.jstr ("XY".toList)),
         (("status".toList), JVal.jstr ("success".toList))])).promptId = none) ∧
    (strTruthy (decodeSuggestion (JVal.jobj
        [(("promptId".toList), JVal.jstr ("p1".toList)),
         (("originalText".toList), JVal.jstr ("bc".toList)),
         (("revisedText".toList), JVal.jstr ("XY".toList)),
         (("status".toList), JVal.jstr ("success".toList))])).originalText = true) ∧
    (strTruthy (decodeSuggestion (JVal.jobj
        [(("promptId".toList), JVal.jstr ("p1".toList)),
         (("originalText".toList), JVal.jstr ("bc".toList)),
         (("revisedText".toList), JVal.jstr ("XY".toList)),
         (("status".toList), JVal.jstr ("success".toList))])).revisedText = true) ∧
    ((decodeSuggestion (JVal.jobj
        [(("promptId".toList), JVal.jstr ("p1".toList)),
         (("originalText".toList), JVal.jstr ("bc".toList)),
         (("revisedText".toList), JVal.jstr ("XY".toList)),
         (("status".toList), JVal.jstr ("success".toList))])).statusJ =
      some ("success".toList)) ∧
    (findTextRangeInPM (mkPlain ("abcd".toList))
        ((decodeSuggestion (JVal.jobj
          [(("promptId".toList), JVal.jstr ("p1".toList)),
           (("originalText".toList), JVal.jstr ("bc".toList)),
           (("revisedText".toList), JVal.jstr ("XY".toList)),
           (("status".toList), JVal.jstr ("success".toList))])).originalText.getD []) =
      some (1, 3)) ∧
    ((∀ f t, findTextRangeInPM (mkPlain ("abcd".toList))
        ((decodeSuggestion (JVal.jobj
          [(("promptId".toList), JVal.jstr ("p1".toList)),
           (("originalText".toList), JVal.jstr ("bc".toList)),
           (("revisedText".toList), JVal.jstr ("XY".toList)),
           (("status".toList), JVal.jstr ("success".toList))])).originalText.getD []) =
          some (f, t) →
      applySuggestionStep 9 (mkPlain ("abcd".toList)) []
          (JVal.jobj
            [(("promptId".toList), JVal.jstr ("p1".toList)),
             (("originalText".toList), JVal.jstr ("bc".toList)),
             (("revisedText".toList), JVal.jstr ("XY".toList)),
             (("status".toList), JVal.jstr ("success".toList))]) =
        (ensureCommentMarkApplied (mkPlain ("abcd".toList))
          (decodeSuggestion (JVal.jobj
            [(("promptId".toList), JVal.jstr ("p1".toList)),
             (("originalText".toList), JVal.jstr ("bc".toList)),
             (("revisedText".toList), JVal.jstr ("XY".toList)),
             (("status".toList), JVal.jstr ("success".toList))])).promptId f t,
         storeSet []
           (decodeSuggestion (JVal.jobj
             [(("promptId".toList), JVal.jstr ("p1".toList)),
              (("originalText".toList), JVal.jstr ("bc".toList)),
              (("revisedText".toList), JVal.jstr ("XY".toList)),
              (("status".toList), JVal.jstr ("success".toList))])).promptId
           ⟨(decodeSuggestion (JVal.jobj
               [(("promptId".toList), JVal.jstr ("p1".toList)),
                (("originalText".toList), JVal.jstr ("bc".toList)),
                (("revisedText".toList), JVal.jstr ("XY".toList)),
                (("status".toList), JVal.jstr ("success".toList))])).promptId, some (f, t),
            (decodeSuggestion (JVal.jobj
               [(("promptId".toList), JVal.jstr ("p1".toList)),
                (("originalText".toList), JVal.jstr ("bc".toList)),
                (("revisedText".toList), JVal.jstr ("XY".toList)),
                (("status".toList), JVal.jstr ("success".toList))])).originalText.getD [],
            jsOr (decodeSuggestion (JVal.jobj
               [(("promptId".toList), JVal.jstr ("p1".toList)),
                (("originalText".toList), JVal.jstr ("bc".toList)),
                (("revisedText".toList), JVal.jstr ("XY".toList)),
                (("status".toList), JVal.jstr ("success".toList))])).explanation
              ("AI Suggested Revision".toList),
            CommentStatus.suggestion_ready,
            (decodeSuggestion (JVal.jobj
               [(("promptId".toList), JVal.jstr ("p1".toList)),
                (("originalText".toList), JVal.jstr ("bc".toList)),
                (("revisedText".toList), JVal.jstr ("XY".toList)),
                (("status".toList), JVal.jstr ("success".toList))])).revisedText,
            (decodeSuggestion (JVal.jobj
               [(("promptId".toList), JVal.jstr ("p1".toList)),
                (("originalText".toList), JVal.jstr ("bc".toList)),
                (("revisedText".toList), JVal.jstr ("XY".toList)),
                (("status".toList), JVal.jstr ("success".toList))])).explanation, 9,
            none, false, true, [], false, some 9⟩) ∧
      textBetween (mkPlain ("abcd".toList)) f t =
        (decodeSuggestion (JVal.jobj
          [(("promptId".toList), JVal.jstr ("p1".toList)),
           (("originalText".toList), JVal.jstr ("bc".toList)),
           (("revisedText".toList), JVal.jstr ("XY".toList)),
           (("status".toList), JVal.jstr ("success".toList))])).originalText.getD [] ∧
      t = f + ((decodeSuggestion (JVal.jobj
          [(("promptId".toList), JVal.jstr ("p1".toList)),
           (("originalText".toList), JVal.jstr ("bc".toList)),
           (("revisedText".toList), JVal.jstr ("XY".toList)),
           (("status".toList), JVal.jstr ("success".toList))])).originalText.getD []).length ∧
      t ≤ (mkPlain ("abcd".toList)).length ∧
      (findCommentMarkRange (mkPlain ("abcd".toList))
          (decodeSuggestion (JVal.jobj
            [(("promptId".toList), JVal.jstr ("p1".toList)),
             (("originalText".toList), JVal.jstr ("bc".toList)),
             (("revisedText".toList), JVal.jstr ("XY".toList)),
             (("status".toList), JVal.jstr ("success".toList))])).promptId = none →
        ∀ i, f ≤ i → i < t →
          markedAt (ensureCommentMarkApplied (mkPlain ("abcd".toList))
              (decodeSuggestion (JVal.jobj
                [(("promptId".toList), JVal.jstr ("p1".toList)),
                 (("originalText".toList), JVal.jstr ("bc".toList)),
                 (("revisedText".toList), JVal.jstr ("XY".toList)),
                 (("status".toList), JVal.jstr ("success".toList))])).promptId f t)
            (decodeSuggestion (JVal.jobj
              [(("promptId".toList), JVal.jstr ("p1".toList)),
               (("originalText".toList), JVal.jstr ("bc".toList)),
               (("revisedText".toList), JVal.jstr ("XY".toList)),
               (("status".toList), JVal.jstr ("success".toList))])).promptId i)) ∧
     (findTextRangeInPM (mkPlain ("abcd".toList))
        ((decodeSuggestion (JVal.jobj
          [(("promptId".toList), JVal.jstr ("p1".toList)),
           (("originalText".toList), JVal.jstr ("bc".toList)),
           (("revisedText".toList), JVal.jstr ("XY".toList)),
           (("status".toList), JVal.jstr ("success".toList))])).originalText.getD []) = none →
      applySuggestionStep 9 (mkPlain ("abcd".toList)) []
          (JVal.jobj
            [(("promptId".toList), JVal.jstr ("p1".toList)),
             (("originalText".toList), JVal.jstr ("bc".toList)),
             (("revisedText".toList), JVal.jstr ("XY".toList)),
             (("status".toList), JVal.jstr ("success".toList))]) =
        (mkPlain ("abcd".toList), []))) :=
  ⟨rfl, by decide, by decide, by decide, by decide,
    c2_synthesize_new_conversation 9 (mkPlain ("abcd".toList)) []
      (JVal.jobj
        [(("promptId".toList), JVal.jstr ("p1".toList)),
         (("originalText".toList), JVal.jstr ("bc".toList)),
         (("revisedText".toList), JVal.jstr ("XY".toList)),
         (("status".toList), JVal.jstr ("success".toList))])
      rfl (by decide) (by decide) (by decide)⟩
theorem dropWhile_ws_prefix (p : JStr) (c : Char) (m : JStr) (hc : isWs c = false) :
    (p ++ c :: m).dropWhile isWs = p.dropWhile isWs ++ c :: m := by
  induction p with
  | nil =>
    rw [List.nil_append, List.dropWhile_cons, hc]
    rfl
  | cons d p' ih =>
    rw [List.cons_append, List.dropWhile_cons, List.dropWhile_cons]
    by_cases hd : isWs d
    · rw [hd]
      simpa using ih
    · rw [Bool.not_eq_true] at hd
      rw [hd]
      simp [List.cons_append]

theorem jsTrim_around (p q obj : JStr) (c : Char) (mo : JStr) (d : Char) (mr : JStr)
    (hobj : obj = c :: mo) (hrev : obj.reverse = d :: mr)
    (hc : isWs c = false) (hd : isWs d = false) :
    jsTrim (p ++ obj ++ q) =
      p.dropWhile isWs ++ obj ++ (q.reverse.dropWhile isWs).reverse := by
  rw [jsTrim]
  have h1 : (p ++ obj ++ q).dropWhile isWs = p.dropWhile isWs ++ (c :: (mo ++ q)) := by
    rw [List.append_assoc, hobj, List.cons_append]
    exact dropWhile_ws_prefix p c (mo ++ q) hc
  rw [h1]
  have h2 : (p.dropWhile isWs ++ (c :: (mo ++ q))).reverse =
      q.reverse ++ (d :: (mr ++ (p.dropWhile isWs).reverse)) := by
    have he : (c :: (mo ++ q) : JStr) = obj ++ q := by
      rw [hobj, List.cons_append]
    rw [he, List.reverse_append, List.reverse_append, hrev]
    simp [List.append_assoc]
  rw [h2, dropWhile_ws_prefix q.reverse d (mr ++ (p.dropWhile isWs).reverse) hd]
  have h3 : (d :: (mr ++ (p.dropWhile isWs).reverse) : JStr) =
      obj.reverse ++ (p.dropWhile isWs).reverse := by
    rw [hrev, List.cons_append]
  rw [h3]
  simp [List.reverse_append, List.reverse_reverse, List.append_assoc]

theorem jsIndexOf_braceL :
    ∀ (a : JStr) (rest : JStr), (∀ cc ∈ a, cc ≠ braceL) →
      jsIndexOf (a ++ braceL :: rest) [braceL] = some a.length := by
  intro a
  induction a with
  | nil =>
    intro rest _
    rw [List.nil_append, jsIndexOf,
      if_pos (show List.take ([braceL] : JStr).length (braceL :: rest) = [braceL] from rfl)]
    rfl
  | cons e a' ih =>
    intro rest ha
    rw [List.cons_append, jsIndexOf]
    have hcond : ¬ ((e :: (a' ++ braceL :: rest)).take ([braceL] : JStr).length = [braceL]) := by
      intro hh
      have he : e = braceL := by simpa using hh
      exact ha e (by simp) he
    rw [if_neg hcond, ih rest (fun cc hcc => ha cc (List.mem_cons_of_mem _ hcc))]
    rfl

/-- The contribution of one character to the running brace count. -/
def charDepth (c : Char) : Int :=
  if c = braceL then 1 else if c = braceR then (-1) else 0

/-- The running brace count of a string. -/
def depthJ (s : JStr) : Int := (s.map charDepth).sum

/-- Balanced brace group as the legacy scan sees it: starts with an opening
brace, ends with the closing brace that first returns the count to zero, the
count staying positive strictly inside (the scan counts braces only, blind
to string literals). -/
def BalancedObj (obj : JStr) : Prop :=
  obj.head? = some braceL ∧ obj.getLast? = some braceR ∧ depthJ obj = 0 ∧
    ∀ k, k < obj.length - 1 → 0 < depthJ (obj.take (k + 1))

theorem depthJ_cons (c : Char) (s : JStr) : depthJ (c :: s) = charDepth c + depthJ s := by
  simp [depthJ]

theorem braceScanAux_balanced :
    ∀ (obj : JStr) (rest : JStr) (count : Int) (i : Nat),
      obj ≠ [] →
      (∀ k, k < obj.length - 1 → 0 < count + depthJ (obj.take (k + 1))) →
      obj.getLast? = some braceR →
      count + depthJ obj = 0 →
      braceScanAux (obj ++ rest) count i = some (i + obj.length) := by
  intro obj
  induction obj with
  | nil => intro rest count i hne _ _ _; exact absurd rfl hne
  | cons c obj' ih =>
    intro rest count i _ hmid hlast hend
    rw [List.cons_append, braceScanAux]
    by_cases hc : c = braceL
    · rw [if_pos hc]
      rcases obj' with _ | ⟨c2, obj''⟩
      · exfalso
        have hcr : c = braceR := by simpa using hlast
        rw [hc] at hcr
        exact absurd hcr (by decide)
      · have hend2 : (count + 1) + depthJ (c2 :: obj'') = 0 := by
          rw [depthJ_cons, charDepth, if_pos hc] at hend
          omega
        have hmid2 : ∀ k, k < (c2 :: obj'').length - 1 →
            0 < (count + 1) + depthJ ((c2 :: obj'').take (k + 1)) := by
          intro k hk
          have hstep := hmid (k + 1) (by simp at hk ⊢; omega)
          have he : (c :: c2 :: obj'').take (k + 1 + 1) = c :: ((c2 :: obj'').take (k + 1)) := rfl
          rw [he, depthJ_cons, charDepth, if_pos hc] at hstep
          omega
        have hlast2 : (c2 :: obj'').getLast? = some braceR := by
          rw [← List.getLast?_cons_cons]
          exact hlast
        rw [ih rest (count + 1) (i + 1) (by simp) hmid2 hlast2 hend2]
        congr 1
        simp [List.length_cons]
        omega
    · by_cases hcr : c = braceR
      · rw [if_neg hc, if_pos hcr]
        rcases obj' with _ | ⟨c2, obj''⟩
        · have hdep : depthJ [c] = -1 := by
            simp [depthJ, charDepth, hc, hcr, show ¬ braceR = braceL by decide]
          rw [hdep] at hend
          have hcount : count = 1 := by omega
          rw [if_pos (by rw [hcount]; decide)]
          rfl
        · have h0 := hmid 0 (by simp)
          have he0 : (c :: c2 :: obj'').take 1 = [c] := rfl
          have hdep : depthJ [c] = -1 := by
            simp [depthJ, charDepth, hc, hcr, show ¬ braceR = braceL by decide]
          rw [he0, hdep] at h0
          rw [if_neg (by omega)]
          have hend2 : (count - 1) + depthJ (c2 :: obj'') = 0 := by
            rw [depthJ_cons, charDepth, if_neg hc, if_pos hcr] at hend
            omega
          have hmid2 : ∀ k, k < (c2 :: obj'').length - 1 →
              0 < (count - 1) + depthJ ((c2 :: obj'').take (k + 1)) := by
            intro k hk
            have hstep := hmid (k + 1) (by simp at hk ⊢; omega)
            have he : (c :: c2 :: obj'').take (k + 1 + 1) = c :: ((c2 :: obj'').take (k + 1)) := rfl
            rw [he, depthJ_cons, charDepth, if_neg hc, if_pos hcr] at hstep
            omega
          have hlast2 : (c2 :: obj'').getLast? = some braceR := by
            rw [← List.getLast?_cons_cons]
            exact hlast
          rw [ih rest (count - 1) (i + 1) (by simp) hmid2 hlast2 hend2]
          congr 1
          simp [List.length_cons]
          omega
      · rw [if_neg hc, if_neg hcr]
        rcases obj' with _ | ⟨c2, obj''⟩
        · exfalso
          have : c = braceR := by simpa using hlast
          exact hcr this
        · have hend2 : count + depthJ (c2 :: obj'') = 0 := by
            rw [depthJ_cons, charDepth, if_neg hc, if_neg hcr] at hend
            omega
          have hmid2 : ∀ k, k < (c2 :: obj'').length - 1 →
              0 < count + depthJ ((c2 :: obj'').take (k + 1)) := by
            intro k hk
            have hstep := hmid (k + 1) (by simp at hk ⊢; omega)
            have he : (c :: c2 :: obj'').take (k + 1 + 1) = c :: ((c2 :: obj'').take (k + 1)) := rfl
            rw [he, depthJ_cons, charDepth, if_neg hc, if_neg hcr] at hstep
            omega
          have hlast2 : (c2 :: obj'').getLast? = some braceR := by
            rw [← List.getLast?_cons_cons]
            exact hlast
          rw [ih rest count (i + 1) (by simp) hmid2 hlast2 hend2]
          congr 1
          simp [List.length_cons]
          omega
instance (obj : JStr) : Decidable (BalancedObj obj) :=
  inferInstanceAs (Decidable (obj.head? = some braceL ∧ obj.getLast? = some braceR ∧
    depthJ obj = 0 ∧ ∀ k, k < obj.length - 1 → 0 < depthJ (obj.take (k + 1))))

/-- C3 (amended): the brace scan exists only in the legacy (part_007)
revision, and only on its unfenced path when the trimmed text does not
already start with a brace or bracket.  There, for any response built of
leading prose (brace-free, not starting with a bracket after trimming),
a balanced top-level brace group that parses as JSON, and arbitrary
trailing prose, with no ```json fence, the extractor cuts out exactly the
brace group and the parse succeeds.  As stated the claim fails: with
trailing prose only, neither revision scans (see the counterexample). -/
theorem c3_legacy_scan_tolerates_prose (p obj q : JStr) (v : JVal)
    (hfence : jsIndexOf (p ++ obj ++ q) fenceOpenTok = none)
    (hp : ∀ cc ∈ p, cc ≠ braceL)
    (hpne : p.dropWhile isWs ≠ [])
    (hphead : (p.dropWhile isWs).head? ≠ some brackL)
    (hobj : BalancedObj obj)
    (hv : parseJson obj = some v) :
    extractJsonLegacy (p ++ obj ++ q) = obj ∧
      parseJson (extractJsonLegacy (p ++ obj ++ q)) = some v := by
  obtain ⟨hh, hl, hd0, hpos⟩ := hobj
  obtain ⟨mo, hobj_eq⟩ : ∃ mo, obj = braceL :: mo := by
    cases obj with
    | nil => cases hh
    | cons x xs =>
      refine ⟨xs, ?_⟩
      have hx : x = braceL := by simpa using hh
      rw [hx]
  have hlrev : obj.reverse.head? = some braceR := by
    rw [← List.getLast?_eq_head?_reverse]
    exact hl
  obtain ⟨mr, hrev_eq⟩ : ∃ mr, obj.reverse = braceR :: mr := by
    rcases hr : obj.reverse with _ | ⟨y, ys⟩
    · rw [hr] at hlrev
      cases hlrev
    · rw [hr] at hlrev
      have hy : y = braceR := by simpa using hlrev
      exact ⟨ys, by rw [hy]⟩
  have hcws : isWs braceL = false := by decide
  have hdws : isWs braceR = false := by decide
  have ht : jsTrim (p ++ obj ++ q) =
      p.dropWhile isWs ++ obj ++ (q.reverse.dropWhile isWs).reverse :=
    jsTrim_around p q obj braceL mo braceR mr hobj_eq hrev_eq hcws hdws
  have hfm : fenceMatch (p ++ obj ++ q) = none := by
    simp only [fenceMatch, hfence]
  obtain ⟨x, P', hP⟩ : ∃ x P', p.dropWhile isWs = x :: P' := by
    rcases hq : p.dropWhile isWs with _ | ⟨x, P'⟩
    · exact absurd hq hpne
    · exact ⟨x, P', rfl⟩
  have hxp : x ∈ p := (List.dropWhile_sublist isWs).subset (by rw [hP]; simp)
  have hxBL : x ≠ braceL := hp x hxp
  have hxBK : x ≠ brackL := by
    intro hxe
    rw [hP, hxe] at hphead
    exact hphead rfl
  have hthead : (jsTrim (p ++ obj ++ q)).head? = some x := by
    rw [ht, hP]
    rfl
  have hcond : ¬ ((jsTrim (p ++ obj ++ q)).head? = some braceL ∨
      (jsTrim (p ++ obj ++ q)).head? = some brackL) := by
    rw [hthead]
    rintro (hcc | hcc)
    · exact hxBL (Option.some.inj hcc)
    · exact hxBK (Option.some.inj hcc)
  have hshape : jsTrim (p ++ obj ++ q) =
      p.dropWhile isWs ++ braceL :: (mo ++ (q.reverse.dropWhile isWs).reverse) := by
    rw [ht, hobj_eq]
    simp [List.append_assoc]
  have hPfree : ∀ cc ∈ p.dropWhile isWs, cc ≠ braceL := fun cc hcc =>
    hp cc ((List.dropWhile_sublist isWs).subset hcc)
  have hidx : jsIndexOf (jsTrim (p ++ obj ++ q)) [braceL] =
      some (p.dropWhile isWs).length := by
    rw [hshape]
    exact jsIndexOf_braceL (p.dropWhile isWs) _ hPfree
  have hdrop : (jsTrim (p ++ obj ++ q)).drop (p.dropWhile isWs).length =
      obj ++ (q.reverse.dropWhile isWs).reverse := by
    rw [ht, List.append_assoc, List.drop_left]
  have hscan : braceScanAux (obj ++ (q.reverse.dropWhile isWs).reverse) 0 0 =
      some obj.length := by
    have h0 := braceScanAux_balanced obj ((q.reverse.dropWhile isWs).reverse) 0 0
      (by rw [hobj_eq]; simp)
      (fun k hk => by have := hpos k hk; omega)
      hl (by omega)
    simpa using h0
  have htake : (obj ++ (q.reverse.dropWhile isWs).reverse).take obj.length = obj :=
    List.take_left obj _
  have hlnf : legacyNoFence (p ++ obj ++ q) = obj := by
    simp only [legacyNoFence, eq_false hcond, if_false, hidx, hdrop, hscan, htake]
  have hext : extractJsonLegacy (p ++ obj ++ q) = obj := by
    simp only [extractJsonLegacy, hfm, hlnf]
  exact ⟨hext, by rw [hext]; exact hv⟩

/-- Witness for C3 (amended): prose on both sides of a balanced suggestions
object, no fence. -/
theorem c3_legacy_scan_tolerates_prose_witness :
    (jsIndexOf (("Sure, here: ".toList) ++ ("\x7b\"suggestions\":[]\x7d".toList) ++
        (" Hope this helps!".toList)) fenceOpenTok = none) ∧
    (∀ cc ∈ ("Sure, here: ".toList), cc ≠ braceL) ∧
    (("Sure, here: ".toList).dropWhile isWs ≠ []) ∧
    ((("Sure, here: ".toList).dropWhile isWs).head? ≠ some brackL) ∧
    BalancedObj ("\x7b\"suggestions\":[]\x7d".toList) ∧
    (parseJson ("\x7b\"suggestions\":[]\x7d".toList) =
      some (JVal.jobj [(("suggestions".toList), JVal.jarr [])])) ∧
    (extractJsonLegacy (("Sure, here: ".toList) ++ ("\x7b\"suggestions\":[]\x7d".toList) ++
        (" Hope this helps!".toList)) = ("\x7b\"suggestions\":[]\x7d".toList) ∧
      parseJson (extractJsonLegacy (("Sure, here: ".toList) ++
          ("\x7b\"suggestions\":[]\x7d".toList) ++ (" Hope this helps!".toList))) =
        some (JVal.jobj [(("suggestions".toList), JVal.jarr [])])) :=
  ⟨rfl, by decide, by decide, by decide, by decide, rfl,
    c3_legacy_scan_tolerates_prose ("Sure, here: ".toList)
      ("\x7b\"suggestions\":[]\x7d".toList) (" Hope this helps!".toList)
      (JVal.jobj [(("suggestions".toList), JVal.jarr [])])
      rfl (by decide) (by decide) (by decide) (by decide) rfl⟩

/-- Counterexample to C3 as stated: trailing prose only around a balanced
object, no fence.  The current revision never brace-scans, and the legacy
revision skips the scan because the trimmed text already starts with an
opening brace, so the surrounding prose makes both parses fail even though
the object alone parses. -/
theorem c3_counterexample :
    BalancedObj ("\x7b\"suggestions\":[]\x7d".toList) ∧
    jsIndexOf (("\x7b\"suggestions\":[]\x7d".toList) ++ (" Hope this helps!".toList))
      fenceOpenTok = none ∧
    parseJson ("\x7b\"suggestions\":[]\x7d".toList) =
      some (JVal.jobj [(("suggestions".toList), JVal.jarr [])]) ∧
    parseJson (extractJsonCurrent
      (("\x7b\"suggestions\":[]\x7d".toList) ++ (" Hope this helps!".toList))) = none ∧
    parseJson (extractJsonLegacy
      (("\x7b\"suggestions\":[]\x7d".toList) ++ (" Hope this helps!".toList))) = none :=
  ⟨by decide, rfl, rfl, rfl, rfl⟩
